import Mathlib

/-!
Verification of the lazy-string buffer tree of python-lstring.

The C++ buffer-tree classes (`StrBuffer`, `JoinBuffer`, `MulBuffer`,
`Slice1Buffer`, `SliceBuffer`) are shallowly embedded as the inductive type
`Buf`.  `Py_ssize_t` values are modelled as `Int` (C++ `%` is `Int.tmod`,
C++ `/` is `Int.tdiv`); code points are `Nat`; fallible C++ code (a thrown
exception) is modelled by `Option`.
-/

namespace LStr

/-- The buffer tree.  `str` is a `StrBuffer` leaf wrapping an immutable flat
array of code points; `joinB` is a `JoinBuffer`; `mulB` is a `MulBuffer`
with its repeat count; `slice1` is a `Slice1Buffer` (contiguous slice);
`sliceN` is a `SliceBuffer` (strided slice). -/
inductive Buf : Type where
  | str (data : List Nat)
  | joinB (l r : Buf)
  | mulB (base : Buf) (count : Int)
  | slice1 (base : Buf) (s e : Int)
  | sliceN (base : Buf) (s e st : Int)
deriving DecidableEq, Repr

/-- `SliceBuffer::compute_len` (slice_buffer.hxx:183-192): number of items of
the arithmetic progression `[start, end)` with the given step. -/
def compute_len (start e st : Int) : Int :=
  if st > 0 then
    if start ≥ e then 0 else (e - start + st - 1).tdiv st
  else
    if start ≤ e then 0 else (start - e + (-st) - 1).tdiv (-st)

/-- `Buffer::length` virtual dispatch:
`StrBuffer::length` is the array length; `JoinBuffer::length`
(join_buffer.hxx:50-52) is the sum; `MulBuffer::length`
(mul_buffer.hxx:102-104) is `base_length * repeat_count`;
`Slice1Buffer::length` (slice_buffer.hxx:48-50) is `max 0 (end - start)`;
`SliceBuffer::length` (slice_buffer.hxx:218) is the cached `compute_len`. -/
def length : Buf → Int
  | .str d => d.length
  | .joinB l r => length l + length r
  | .mulB b n => length b * n
  | .slice1 _ s e => if e > s then e - s else 0
  | .sliceN _ s e st => compute_len s e st

/-- `Buffer::value` virtual dispatch. `StrBuffer::value` (str_buffer.hxx:48-51)
bounds-checks and throws (`none`) out of range; `JoinBuffer::value`
(join_buffer.hxx:69-75) splits at the left length; `MulBuffer::value`
(mul_buffer.hxx:121-126) throws on a zero-length base, else uses `% base_len`
(C++ truncated `%` = `Int.tmod`); `Slice1Buffer::value` (slice_buffer.hxx:98-100)
and `SliceBuffer::value` (slice_buffer.hxx:223-225) delegate without checks. -/
def value : Buf → Int → Option Nat
  | .str d, i => if i < 0 ∨ (d.length : Int) ≤ i then none else d.get? i.toNat
  | .joinB l r, i => if i < length l then value l i else value r (i - length l)
  | .mulB b _, i => if length b ≤ 0 then none else value b (i.tmod (length b))
  | .slice1 b s _, i => value b (s + i)
  | .sliceN b s _ st, i => value b (s + i * st)

/-- `lstr_height` (lstring_concat.cxx:14-18): a non-Join node has height 1.
`JoinBuffer::height()` is not part of the sources under src/; modelled from
the spec: "a derived `height = 1 + max(height(left), height(right))`". -/
def height : Buf → Nat
  | .joinB l r => 1 + max (height l) (height r)
  | _ => 1

/-- The AVL balance invariant of the spec: every Join node satisfies
`|height(left) - height(right)| <= 1`. -/
def isAvl : Buf → Bool
  | .joinB l r =>
      isAvl l && isAvl r && decide (height l ≤ height r + 1) &&
        decide (height r ≤ height l + 1)
  | _ => true

/-- `rotate_left` (lstring_concat.cxx:37-49): `Join(a, Join(b,c))` becomes
`Join(Join(a,b), c)`.  The C++ casts blindly; on any other shape the cast is
undefined behaviour, never exercised by the callers — the fallback keeps the
input unchanged. -/
def rotateLeft : Buf → Buf
  | .joinB a (.joinB b c) => .joinB (.joinB a b) c
  | t => t

/-- `rotate_right` (lstring_concat.cxx:51-63): `Join(Join(a,b), c)` becomes
`Join(a, Join(b,c))`. -/
def rotateRight : Buf → Buf
  | .joinB (.joinB a b) c => .joinB a (.joinB b c)
  | t => t

/-- `rebalance_join` (lstring_concat.cxx:65-113): one AVL rebalancing pass on
a freshly built Join node. -/
def rebalanceJoin : Buf → Buf
  | .joinB l r =>
    if height l > height r + 1 then
      match l with
      | .joinB ll lr =>
        if height lr > height ll then
          rotateRight (.joinB (rotateLeft (.joinB ll lr)) r)
        else rotateRight (.joinB (.joinB ll lr) r)
      | _ => rotateRight (.joinB l r)
    else if height r > height l + 1 then
      match r with
      | .joinB rl rr =>
        if height rl > height rr then
          rotateLeft (.joinB l (rotateRight (.joinB rl rr)))
        else rotateLeft (.joinB l (.joinB rl rr))
      | _ => rotateLeft (.joinB l r)
    else .joinB l r
  | t => t

/-- `concat_balanced` (lstring_concat.cxx:115-146): height-aware
concatenation.  When one tree is more than one level taller, descend its
spine, join recursively and rebalance on the way out. -/
def concatBalanced (l r : Buf) : Buf :=
  if height l > height r + 1 then
    match l with
    | .joinB a b => rebalanceJoin (.joinB a (concatBalanced b r))
    | _ => rebalanceJoin (.joinB l r)
  else if height r > height l + 1 then
    match r with
    | .joinB b c => rebalanceJoin (.joinB (concatBalanced l b) c)
    | _ => rebalanceJoin (.joinB l r)
  else rebalanceJoin (.joinB l r)
termination_by sizeOf l + sizeOf r
decreasing_by
  all_goals simp_wf
  all_goals omega

/-- Well-formedness of a buffer tree: the construction-time validation of the
C++ constructors plus the data-model bounds of spec §3 (a repeat count is
non-negative, slice bounds lie inside the base). -/
def WF : Buf → Prop
  | .str d => ∀ v ∈ d, v < 4294967296
  | .joinB l r => WF l ∧ WF r
  | .mulB b n => WF b ∧ 0 ≤ n
  | .slice1 b s e => WF b ∧ (s < e → 0 ≤ s ∧ e ≤ length b)
  | .sliceN b s e st => WF b ∧ st ≠ 0 ∧
      (∀ i : Int, 0 ≤ i → i < length (.sliceN b s e st) →
        0 ≤ s + i * st ∧ s + i * st < length b)

/-! ### Single-character search (`findc` / `rfindc`) -/

/-- Forward scan of a leaf array: first `i` (starting at the given index,
for `fuel` positions) whose element equals `ch`, else `-1`.  Models CPython's
`findchar` with direction `1`. -/
def strScanF (d : List Nat) (ch : Nat) (i : Int) : Nat → Int
  | 0 => -1
  | fu+1 => if d.get? i.toNat = some ch then i else strScanF d ch (i+1) fu

/-- Backward scan of a leaf array: first hit among positions `e-1, e-2, ...`
(`fuel` many), else `-1`.  Models CPython's `findchar` with direction `-1`. -/
def strScanR (d : List Nat) (ch : Nat) (e : Int) : Nat → Int
  | 0 => -1
  | fu+1 => if d.get? (e-1).toNat = some ch then e - 1 else strScanR d ch (e-1) fu

/-- Index adjustment of CPython's `ADJUST_INDICES` macro, used by
`PyUnicode_FindChar` (called from `StrBuffer::findc`/`rfindc`,
str_buffer.hxx:126-137): slice-like clamping of `end` then `start`. -/
def strAdjustEnd (len e : Int) : Int :=
  if e > len then len else if e < 0 then (if e + len < 0 then 0 else e + len) else e

/-- `ADJUST_INDICES` clamping of `start`. -/
def strAdjustStart (len start : Int) : Int :=
  if start < 0 then (if start + len < 0 then 0 else start + len) else start

/-- `StrBuffer::findc` (str_buffer.hxx:126-129) = `PyUnicode_FindChar(.., 1)`. -/
def strFindc (d : List Nat) (start e : Int) (ch : Nat) : Int :=
  let len : Int := d.length
  let e' := strAdjustEnd len e
  let s' := strAdjustStart len start
  strScanF d ch s' (e' - s').toNat

/-- `StrBuffer::rfindc` (str_buffer.hxx:134-137) = `PyUnicode_FindChar(.., -1)`. -/
def strRFindc (d : List Nat) (start e : Int) (ch : Nat) : Int :=
  let len : Int := d.length
  let e' := strAdjustEnd len e
  let s' := strAdjustStart len start
  strScanR d ch e' (e' - s').toNat

/-- The forward scan loop of `SliceBuffer::findc` (slice_buffer.hxx:273-277):
reads `value(start_index + i*step)` for increasing `i`;  a read failure is an
exception (`none`). -/
def sliceScanF (b : Buf) (sIdx st : Int) (ch : Nat) (i : Int) : Nat → Option Int
  | 0 => some (-1)
  | fu+1 => do
      let v ← value b (sIdx + i * st)
      if v = ch then pure i else sliceScanF b sIdx st ch (i+1) fu

/-- The backward scan loop of `SliceBuffer::rfindc` (slice_buffer.hxx:290-294):
positions `e-1, e-2, ...`. -/
def sliceScanR (b : Buf) (sIdx st : Int) (ch : Nat) (e : Int) : Nat → Option Int
  | 0 => some (-1)
  | fu+1 => do
      let v ← value b (sIdx + (e-1) * st)
      if v = ch then pure (e-1) else sliceScanR b sIdx st ch (e-1) fu

/-- `Buffer::findc` virtual dispatch.  The `mulB` case inlines the
`find_2part` template (mul_buffer.hxx:24-48) instantiated with the base
buffer's `findc`, exactly as `MulBuffer::findc` (mul_buffer.hxx:171-186)
does;  `joinB` is join_buffer.hxx:160-189;  `slice1` is
slice_buffer.hxx:133-149;  `sliceN` is slice_buffer.hxx:264-279. -/
def findc : Buf → Int → Int → Nat → Option Int
  | .str d, start, e, ch => some (strFindc d start e ch)
  | .joinB l r, start, e, ch =>
      let llen := length l
      let rlen := length r
      let total := llen + rlen
      if total ≤ 0 then some (-1)
      else
        let start := if start < 0 then 0 else start
        let e := if e < 0 then 0 else e
        if start > total then some (-1)
        else
          let e := if e > total then total else e
          if start ≥ e then some (-1)
          else do
            let pos₁ ←
              (if start < llen then findc l start (if e < llen then e else llen) ch
               else pure (-1))
            if pos₁ ≠ -1 then pure pos₁
            else if e > llen then do
              let pos₂ ← findc r (if start > llen then start - llen else 0) (e - llen) ch
              if pos₂ ≠ -1 then pure (pos₂ + llen) else pure (-1)
            else pure (-1)
  | .mulB b n, start, e, ch =>
      let L := length b
      if L ≤ 0 then some (-1)
      else
        let start := if start < 0 then 0 else start
        let total := L * n
        let e := if e > total then total else e
        if start ≥ e then some (-1)
        else
          let repStart := start.tdiv L
          let offStart := start - repStart * L
          let blockEnd := (repStart + 1) * L
          if e ≤ blockEnd then do
            let pos ← findc b offStart (offStart + (e - start)) ch
            pure (if pos = -1 then -1 else repStart * L + pos)
          else do
            let pos ← findc b offStart L ch
            if pos ≠ -1 then pure (repStart * L + pos)
            else
              let repNext := repStart + 1
              let availNext := e - repNext * L
              if availNext ≤ 0 then pure (-1)
              else
                let limit := if availNext < L then availNext else L
                let limit := if limit = L then offStart else limit
                if limit ≤ 0 then pure (-1)
                else do
                  let pos2 ← findc b 0 limit ch
                  pure (if pos2 = -1 then -1 else repNext * L + pos2)
  | .slice1 b sIdx eIdx, start, e, ch =>
      let len := if eIdx > sIdx then eIdx - sIdx else 0
      if len ≤ 0 then some (-1)
      else
        let start := if start < 0 then 0 else start
        let e := if e < 0 then 0 else e
        if start > len then some (-1)
        else
          let e := if e > len then len else e
          if start ≥ e then some (-1)
          else do
            let pos ← findc b (sIdx + start) (sIdx + e) ch
            pure (if pos = -1 then -1 else pos - sIdx)
  | .sliceN b sIdx eIdx st, start, e, ch =>
      let len := compute_len sIdx eIdx st
      if len ≤ 0 then some (-1)
      else
        let start := if start < 0 then 0 else start
        let e := if e < 0 then 0 else e
        if start > len then some (-1)
        else
          let e := if e > len then len else e
          if start ≥ e then some (-1)
          else sliceScanF b sIdx st ch start (e - start).toNat

/-- `Buffer::rfindc` virtual dispatch; the `mulB` case inlines `rfind_2part`
(mul_buffer.hxx:50-74), `joinB` is join_buffer.hxx:191-220 (right portion
first), slices as for `findc`. -/
def rfindc : Buf → Int → Int → Nat → Option Int
  | .str d, start, e, ch => some (strRFindc d start e ch)
  | .joinB l r, start, e, ch =>
      let llen := length l
      let rlen := length r
      let total := llen + rlen
      if total ≤ 0 then some (-1)
      else
        let start := if start < 0 then 0 else start
        let e := if e < 0 then 0 else e
        if start > total then some (-1)
        else
          let e := if e > total then total else e
          if start ≥ e then some (-1)
          else do
            let pos₁ ←
              (if e > llen then
                rfindc r (if start > llen then start - llen else 0) (e - llen) ch
               else pure (-1))
            if pos₁ ≠ -1 then pure (pos₁ + llen)
            else if start < llen then do
              let pos₂ ← rfindc l start (if e < llen then e else llen) ch
              if pos₂ ≠ -1 then pure pos₂ else pure (-1)
            else pure (-1)
  | .mulB b n, start, e, ch =>
      let L := length b
      if L ≤ 0 then some (-1)
      else
        let start := if start < 0 then 0 else start
        let total := L * n
        let e := if e > total then total else e
        if start ≥ e then some (-1)
        else
          let lastIndex := e - 1
          let repLast := lastIndex.tdiv L
          let offEnd := (lastIndex - repLast * L) + 1
          let repStart := start.tdiv L
          let offStart := start - repStart * L
          if repLast = repStart then do
            let pos ← rfindc b offStart offEnd ch
            pure (if pos = -1 then -1 else repLast * L + pos)
          else do
            let pos ← rfindc b 0 offEnd ch
            if pos ≠ -1 then pure (repLast * L + pos)
            else
              let repPrev := repLast - 1
              let low := offEnd
              let low := if repPrev = repStart ∧ low < offStart then offStart else low
              if low ≥ L then pure (-1)
              else do
                let pos2 ← rfindc b low L ch
                pure (if pos2 = -1 then -1 else repPrev * L + pos2)
  | .slice1 b sIdx eIdx, start, e, ch =>
      let len := if eIdx > sIdx then eIdx - sIdx else 0
      if len ≤ 0 then some (-1)
      else
        let start := if start < 0 then 0 else start
        let e := if e < 0 then 0 else e
        if start > len then some (-1)
        else
          let e := if e > len then len else e
          if start ≥ e then some (-1)
          else do
            let pos ← rfindc b (sIdx + start) (sIdx + e) ch
            pure (if pos = -1 then -1 else pos - sIdx)
  | .sliceN b sIdx eIdx st, start, e, ch =>
      let len := compute_len sIdx eIdx st
      if len ≤ 0 then some (-1)
      else
        let start := if start < 0 then 0 else start
        let e := if e < 0 then 0 else e
        if start > len then some (-1)
        else
          let e := if e > len then len else e
          if start ≥ e then some (-1)
          else sliceScanR b sIdx st ch e (e - start).toNat

/-! ### Bulk copy -/

/-- Storage bound of a unicode kind: `2^8`, `2^16` or `2^32`. -/
def kindBound (w : Int) : Nat := if w = 1 then 256 else if w = 2 then 65536 else 4294967296

/-- The per-element store cast of the width-`w` `copy` overloads
(`static_cast<uintN_t>`). -/
def castW (w : Int) (v : Nat) : Nat := v % kindBound w

/-- The element-writing loop shared by the `copy` implementations: for `fuel`
steps writes `f i` into the target at `off + i`. -/
def writeLoop (f : Int → Option Nat) (tgt : List Nat) (off : Int) (i : Int) :
    Nat → Option (List Nat)
  | 0 => some tgt
  | fu+1 => do
      let v ← f i
      writeLoop f (tgt.set (off + i).toNat v) off (i+1) fu

/-- `Buffer::copy` virtual dispatch as a transformer of the destination
array (`tgt`), writing at offset `off`.  `str` is `StrBuffer::copy`
(str_buffer.hxx:63-91, unchecked reads);  `joinB` splits at the left length
(join_buffer.hxx:88-140);  `mulB` is a no-op on a zero-length base, else a
modulo loop (mul_buffer.hxx:131-158);  `slice1` delegates with a shifted
start (slice_buffer.hxx:108-122);  `sliceN` is a strided loop
(slice_buffer.hxx:230-253). -/
def copyBuf (w : Int) : Buf → List Nat → Int → Int → Int → Option (List Nat)
  | .str d, tgt, off, start, count =>
      writeLoop
        (fun i => (castW w) <$> (if start + i < 0 then none else d.get? (start+i).toNat))
        tgt off 0 count.toNat
  | .joinB l r, tgt, off, start, count =>
      let llen := length l
      if start < llen then
        let leftCount := min count (llen - start)
        do
          let t1 ← copyBuf w l tgt off start leftCount
          if leftCount < count then copyBuf w r t1 (off + leftCount) 0 (count - leftCount)
          else pure t1
      else copyBuf w r tgt off (start - llen) count
  | .mulB b _, tgt, off, start, count =>
      let L := length b
      if L ≤ 0 then some tgt
      else writeLoop (fun i => (castW w) <$> value b ((start + i).tmod L)) tgt off 0 count.toNat
  | .slice1 b s _, tgt, off, start, count => copyBuf w b tgt off (s + start) count
  | .sliceN b s _ st, tgt, off, start, count =>
      writeLoop (fun i => (castW w) <$> value b (s + (start + i) * st)) tgt off 0 count.toNat

/-! ### Hash and comparison -/

/-- Two's-complement wrap of signed 64-bit (`Py_hash_t`) arithmetic. -/
def wrap64 (z : Int) : Int := (z + 2^63) % 2^64 - 2^63

/-- The rolling-hash loop of `Buffer::compute_hash` (buffer.hxx:576-588):
`x = x * 31 + ch` over all code points. -/
def computeHashAux (b : Buf) (x : Int) (i : Int) : Nat → Option Int
  | 0 => some x
  | fu+1 => do
      let ch ← value b i
      computeHashAux b (wrap64 (x * 31 + ch)) (i+1) fu

/-- `Buffer::compute_hash`: rolling hash, then the reserved value `-1` is
remapped to `-2`. -/
def compute_hash (b : Buf) : Option Int := do
  let x ← computeHashAux b 0 0 (length b).toNat
  pure (if x = -1 then -2 else x)

/-- `Buffer::hash` (buffer.hxx:309-315): lazily caches `compute_hash` with
sentinel `-1`;  since `compute_hash` never returns `-1` the cache is
observationally the pure function `compute_hash`. -/
def hashB (b : Buf) : Option Int := compute_hash b

/-- Lexicographic comparison of two flat arrays — the semantics of
`PyUnicode_Compare` used by `StrBuffer::cmp` (str_buffer.hxx:149-157):
code-point by code-point, ties broken by length. -/
def listCmp : List Nat → List Nat → Int
  | [], [] => 0
  | [], _ :: _ => -1
  | _ :: _, [] => 1
  | a :: as, b :: bs => if a < b then -1 else if a > b then 1 else listCmp as bs

/-- The loop of `Buffer::cmp` (buffer.cxx:112-126): compare values up to the
minimum length, then compare lengths. -/
def cmpLoop (a b : Buf) (len1 len2 : Int) (i : Int) : Nat → Option Int
  | 0 => some (if len1 < len2 then -1 else if len1 > len2 then 1 else 0)
  | fu+1 => do
      let c1 ← value a i
      let c2 ← value b i
      if c1 < c2 then pure (-1)
      else if c1 > c2 then pure 1
      else cmpLoop a b len1 len2 (i+1) fu

/-- `cmp` with virtual dispatch: `StrBuffer::cmp` takes the
`PyUnicode_Compare` fast path when both sides wrap Python strings, every
other combination runs `Buffer::cmp`. -/
def cmpBuf (a b : Buf) : Option Int :=
  match a, b with
  | .str d1, .str d2 => some (listCmp d1 d2)
  | _, _ =>
      let len1 := length a
      let len2 := length b
      let minlen := if len1 < len2 then len1 else len2
      cmpLoop a b len1 len2 0 minlen.toNat

/-- The `Py_EQ` path of `LStr_richcompare` (lstring.cxx:521-555): unequal
cached hashes short-circuit to `False`, otherwise `cmp == 0` decides. -/
def richcompareEq (a b : Buf) : Option Bool := do
  let ha ← hashB a
  let hb ← hashB b
  if ha ≠ hb then pure false
  else do
    let c ← cmpBuf a b
    pure (c = 0)

/-- The `Py_NE` path of `LStr_richcompare`. -/
def richcompareNe (a b : Buf) : Option Bool := do
  let ha ← hashB a
  let hb ← hashB b
  if ha ≠ hb then pure true
  else do
    let c ← cmpBuf a b
    pure (c ≠ 0)

/-- Reference equality for C10, following the claim's words: a comparison
defined purely by `cmp` (`a == b` iff `cmp(a,b) == 0`). -/
def pureEq (a b : Buf) : Option Bool := do
  let c ← cmpBuf a b
  pure (c = 0)

/-- Reference inequality for C10: `a != b` iff `cmp(a,b) != 0`. -/
def pureNe (a b : Buf) : Option Bool := do
  let c ← cmpBuf a b
  pure (c ≠ 0)

/-! ### Unicode kind -/

/-- The storage kind of a leaf: CPython strings are canonical, so
`PyUnicode_KIND` (used by `make_str_buffer`, lstring_utils.cxx:24-36, and
reported by `Str8/16/32Buffer::unicode_kind`) is the minimal width of the
data. -/
def strKind (d : List Nat) : Int :=
  if d.any (fun v => 65536 ≤ v) then 4 else if d.any (fun v => 256 ≤ v) then 2 else 1

/-- The scanning loop of `Slice1Buffer::unicode_kind` for a 2-byte base
(slice_buffer.hxx:65-74): 2 as soon as a value `≥ 0x100` is seen, else 1. -/
def sliceKindScan2 (self : Buf) (i : Int) : Nat → Option Int
  | 0 => some 1
  | fu+1 => do
      let v ← value self i
      if 256 ≤ v then pure 2 else sliceKindScan2 self (i+1) fu

/-- The scanning loop of `Slice1Buffer::unicode_kind` for a 4-byte base
(slice_buffer.hxx:75-88): 4 as soon as a value `≥ 0x10000` is seen, else the
running kind upgraded to 2 on any value `≥ 0x100`. -/
def sliceKindScan4 (self : Buf) (k : Int) (i : Int) : Nat → Option Int
  | 0 => some k
  | fu+1 => do
      let v ← value self i
      if 65536 ≤ v then pure 4
      else if 256 ≤ v then sliceKindScan4 self (if k < 2 then 2 else k) (i+1) fu
      else sliceKindScan4 self k (i+1) fu

/-- `unicode_kind` virtual dispatch: `JoinBuffer::unicode_kind`
(join_buffer.hxx:59-61) is the max of the children; `MulBuffer::unicode_kind`
(mul_buffer.hxx:111-113) delegates to the base; both slice classes share
`Slice1Buffer::unicode_kind` (slice_buffer.hxx:59-91), which rescans its own
(virtual) values; an unknown base kind leaves the cache at `-1`. -/
def unicodeKind : Buf → Option Int
  | .str d => some (strKind d)
  | .joinB l r => do
      let kl ← unicodeKind l
      let kr ← unicodeKind r
      pure (max kl kr)
  | .mulB b _ => unicodeKind b
  | .slice1 b s e => do
      let ok ← unicodeKind b
      if ok = 1 then pure 1
      else if ok = 2 then sliceKindScan2 (.slice1 b s e) 0 (length (.slice1 b s e)).toNat
      else if ok = 4 then sliceKindScan4 (.slice1 b s e) 1 0 (length (.slice1 b s e)).toNat
      else pure (-1)
  | .sliceN b s e st => do
      let ok ← unicodeKind b
      if ok = 1 then pure 1
      else if ok = 2 then sliceKindScan2 (.sliceN b s e st) 0 (length (.sliceN b s e st)).toNat
      else if ok = 4 then sliceKindScan4 (.sliceN b s e st) 1 0 (length (.sliceN b s e st)).toNat
      else pure (-1)

/-- All code points reachable through a node (for the C8 reference
definition). -/
def minimalVals (b : Buf) : List Nat :=
  (List.range (length b).toNat).map (fun (k : Nat) => (value b (k : Int)).getD 0)

/-- Reference definition for C8, following the claim's words: the minimal
width among {1,2,4} sufficient to hold every code point reachable through
the node. -/
def minimalKind (b : Buf) : Int :=
  if (minimalVals b).any (fun v => 65536 ≤ v) then 4
  else if (minimalVals b).any (fun v => 256 ≤ v) then 2
  else 1

/-! ### Materialization: collapse and optimize -/

/-- `collapse` virtual dispatch: only `JoinBuffer::collapse`
(join_buffer.hxx:268-275) is overridden — it materializes through
`buffer_to_pystr` (lstring_utils.cxx:138-177): allocate `length()` cells of
the buffer's `unicode_kind` and bulk-`copy` the whole contents;
`Buffer::collapse` (buffer.cxx:241-243) returns null for every other node. -/
def collapseBuf : Buf → Option Buf
  | .joinB l r => do
      let k ← unicodeKind (.joinB l r)
      if k = 1 ∨ k = 2 ∨ k = 4 then do
        let len := length (.joinB l r)
        let out ← copyBuf k (.joinB l r) (List.replicate len.toNat 0) 0 0 len
        pure (.str out)
      else none
  | _ => none

/-- `Buffer::optimize` (buffer.cxx:5-10) with the process-global threshold
`T` as a parameter: inactive threshold or large node leaves the buffer
unchanged (`none`), otherwise the (virtual) `collapse` result replaces it. -/
def optimizeRet (T : Int) (b : Buf) : Option Buf :=
  if T ≤ 0 then none
  else if length b < T then collapseBuf b
  else none

/-! ### Direct-scan reference search (for C5) -/

/-- Reference forward scan: first index `i, i+1, ...` (for `fuel` positions)
whose value equals `ch`, else `-1`.  This is the direct scan of the whole
sequence that the claim compares the search against. -/
def scanFirst (b : Buf) (ch : Nat) (i : Int) : Nat → Int
  | 0 => -1
  | fu+1 => if value b i = some ch then i else scanFirst b ch (i+1) fu

/-- Reference backward scan: first hit among `e-1, e-2, ...`. -/
def scanLast (b : Buf) (ch : Nat) (e : Int) : Nat → Int
  | 0 => -1
  | fu+1 => if value b (e-1) = some ch then e - 1 else scanLast b ch (e-1) fu

/-- The claim's reference semantics of `find_char`: the smallest index in the
clamped range `[max(start,0), min(end, length))` whose value is `ch`,
computed by direct scan, else `-1`. -/
def specFindc (b : Buf) (s e : Int) (ch : Nat) : Int :=
  if max s 0 < min e (length b)
  then scanFirst b ch (max s 0) (min e (length b) - max s 0).toNat
  else -1

/-- The claim's reference semantics of `rfind_char`: the largest matching
index in the clamped range, by direct scan, else `-1`. -/
def specRFindc (b : Buf) (s e : Int) (ch : Nat) : Int :=
  if max s 0 < min e (length b)
  then scanLast b ch (min e (length b)) (min e (length b) - max s 0).toNat
  else -1

/-- `r` is the first index in `[lo, hi)` satisfying `p` (or `-1` if none). -/
def FirstIn (p : Int → Prop) (lo hi r : Int) : Prop :=
  (r = -1 ∧ ∀ i, lo ≤ i → i < hi → ¬ p i) ∨
  (lo ≤ r ∧ r < hi ∧ p r ∧ ∀ i, lo ≤ i → i < hi → p i → r ≤ i)

/-- `r` is the last index in `[lo, hi)` satisfying `p` (or `-1` if none). -/
def LastIn (p : Int → Prop) (lo hi r : Int) : Prop :=
  (r = -1 ∧ ∀ i, lo ≤ i → i < hi → ¬ p i) ∨
  (lo ≤ r ∧ r < hi ∧ p r ∧ ∀ i, lo ≤ i → i < hi → p i → i ≤ r)

/-- The observable effect of `lstr_optimize` (lstring_utils.cxx:70-84) on a
buffer tree: a `StrBuffer` is left alone;  a Join node is replaced by its
threshold-gated collapse when that triggers, else `JoinBuffer::optimize`
(join_buffer.hxx:285-295) recursively optimizes both children in place;
repeat and slice nodes never change (their `collapse` is null and they do
not recurse). -/
def lstrOptimizeB (T : Int) : Buf → Buf
  | .str d => .str d
  | .joinB l r =>
      match optimizeRet T (.joinB l r) with
      | some nb => nb
      | none => .joinB (lstrOptimizeB T l) (lstrOptimizeB T r)
  | b => b

end LStr

namespace LStr

/-! ### Basic facts about heights and the balance predicate -/

theorem height_pos (b : Buf) : 1 ≤ height b := by
  cases b <;> simp [height]

theorem height_joinB (l r : Buf) :
    height (.joinB l r) = 1 + max (height l) (height r) := rfl

theorem isAvl_join_iff {l r : Buf} :
    isAvl (.joinB l r) = true ↔
      isAvl l = true ∧ isAvl r = true ∧
        height l ≤ height r + 1 ∧ height r ≤ height l + 1 := by
  simp [isAvl, Bool.and_eq_true, decide_eq_true_iff, and_assoc]

/-- One `rebalance_join` pass on `Join(l, r)` with AVL children whose heights
differ by at most 2 produces an AVL tree whose height is `max` or `max + 1`
of the children's heights; when the children already balance, the height is
exactly `1 + max`. -/
theorem rebalanceJoin_spec (l r : Buf) (hl : isAvl l = true) (hr : isAvl r = true)
    (h₁ : height l ≤ height r + 2) (h₂ : height r ≤ height l + 2) :
    isAvl (rebalanceJoin (.joinB l r)) = true ∧
    max (height l) (height r) ≤ height (rebalanceJoin (.joinB l r)) ∧
    height (rebalanceJoin (.joinB l r)) ≤ max (height l) (height r) + 1 ∧
    (height l ≤ height r + 1 → height r ≤ height l + 1 →
      height (rebalanceJoin (.joinB l r)) = 1 + max (height l) (height r)) := by
  by_cases hLH : height l > height r + 1
  · -- Left heavy: height l = height r + 2, so l is a Join node.
    have hrp := height_pos r
    cases l with
    | str d => simp [height] at hLH
    | mulB b n => simp [height] at hLH
    | slice1 b s e => simp [height] at hLH
    | sliceN b s e st => simp [height] at hLH
    | joinB ll lr =>
      rw [isAvl_join_iff] at hl
      obtain ⟨hll, hlr, hb1, hb2⟩ := hl
      by_cases hcase : height lr > height ll
      · -- LR case: lr itself is a Join node.
        have hllp := height_pos ll
        cases lr with
        | str d => simp [height] at hcase; omega
        | mulB b n => simp [height] at hcase; omega
        | slice1 b s e => simp [height] at hcase; omega
        | sliceN b s e st => simp [height] at hcase; omega
        | joinB u v =>
          rw [isAvl_join_iff] at hlr
          obtain ⟨hu, hv, hc1, hc2⟩ := hlr
          have hred : rebalanceJoin (.joinB (.joinB ll (.joinB u v)) r)
              = .joinB (.joinB ll u) (.joinB v r) := by
            simp only [rebalanceJoin, if_pos hLH, if_pos hcase, rotateLeft, rotateRight]
          rw [hred]
          simp only [height_joinB] at hLH hcase h₁ h₂ hb1 hb2 hc1 hc2 ⊢
          refine ⟨?_, by omega, by omega, by intro hx hy; omega⟩
          simp only [isAvl_join_iff, height_joinB]
          exact ⟨⟨hll, hu, by omega, by omega⟩, ⟨hv, hr, by omega, by omega⟩,
            by omega, by omega⟩
      · -- LL case: single right rotation.
        have hred : rebalanceJoin (.joinB (.joinB ll lr) r)
            = .joinB ll (.joinB lr r) := by
          simp only [rebalanceJoin, if_pos hLH, if_neg hcase, rotateRight]
        rw [hred]
        simp only [height_joinB] at hLH hcase h₁ h₂ hb1 hb2 ⊢
        refine ⟨?_, by omega, by omega, by intro hx hy; omega⟩
        simp only [isAvl_join_iff, height_joinB]
        exact ⟨hll, ⟨hlr, hr, by omega, by omega⟩, by omega, by omega⟩
  · by_cases hRH : height r > height l + 1
    · -- Right heavy: symmetric.
      have hlp := height_pos l
      cases r with
      | str d => simp [height] at hRH
      | mulB b n => simp [height] at hRH
      | slice1 b s e => simp [height] at hRH
      | sliceN b s e st => simp [height] at hRH
      | joinB rl rr =>
        rw [isAvl_join_iff] at hr
        obtain ⟨hrl, hrr, hb1, hb2⟩ := hr
        by_cases hcase : height rl > height rr
        · -- RL case: rl itself is a Join node.
          have hrrp := height_pos rr
          cases rl with
          | str d => simp [height] at hcase; omega
          | mulB b n => simp [height] at hcase; omega
          | slice1 b s e => simp [height] at hcase; omega
          | sliceN b s e st => simp [height] at hcase; omega
          | joinB u v =>
            rw [isAvl_join_iff] at hrl
            obtain ⟨hu, hv, hc1, hc2⟩ := hrl
            have hred : rebalanceJoin (.joinB l (.joinB (.joinB u v) rr))
                = .joinB (.joinB l u) (.joinB v rr) := by
              simp only [rebalanceJoin, if_neg hLH, if_pos hRH, if_pos hcase,
                rotateLeft, rotateRight]
            rw [hred]
            simp only [height_joinB] at hLH hRH hcase h₁ h₂ hb1 hb2 hc1 hc2 ⊢
            refine ⟨?_, by omega, by omega, by intro hx hy; omega⟩
            simp only [isAvl_join_iff, height_joinB]
            exact ⟨⟨hl, hu, by omega, by omega⟩, ⟨hv, hrr, by omega, by omega⟩,
              by omega, by omega⟩
        · -- RR case: single left rotation.
          have hred : rebalanceJoin (.joinB l (.joinB rl rr))
              = .joinB (.joinB l rl) rr := by
            simp only [rebalanceJoin, if_neg hLH, if_pos hRH, if_neg hcase, rotateLeft]
          rw [hred]
          simp only [height_joinB] at hLH hRH hcase h₁ h₂ hb1 hb2 ⊢
          refine ⟨?_, by omega, by omega, by intro hx hy; omega⟩
          simp only [isAvl_join_iff, height_joinB]
          exact ⟨⟨hl, hrl, by omega, by omega⟩, hrr, by omega, by omega⟩
    · -- Already balanced: the node is returned as built.
      have hred : rebalanceJoin (.joinB l r) = .joinB l r := by
        simp only [rebalanceJoin, if_neg hLH, if_neg hRH]
      rw [hred]
      simp only [height_joinB]
      refine ⟨?_, by omega, by omega, fun hx hy => ?_⟩
      · rw [isAvl_join_iff]
        exact ⟨hl, hr, by omega, by omega⟩
      · trivial

/-- `concat_balanced` on two AVL trees returns an AVL tree whose height is
`max` or `max + 1` of the input heights (the height bound is what makes the
spine-descent induction go through). -/
theorem concatBalanced_spec : ∀ (m : Nat) (l r : Buf), sizeOf l + sizeOf r ≤ m →
    isAvl l = true → isAvl r = true →
    isAvl (concatBalanced l r) = true ∧
    max (height l) (height r) ≤ height (concatBalanced l r) ∧
    height (concatBalanced l r) ≤ max (height l) (height r) + 1 := by
  intro m
  induction m using Nat.strong_induction_on with
  | _ m ih =>
    intro l r hm hl hr
    by_cases hLH : height l > height r + 1
    · have hrp := height_pos r
      cases l with
      | str d => simp [height] at hLH
      | mulB b n => simp [height] at hLH
      | slice1 b s e => simp [height] at hLH
      | sliceN b s e st => simp [height] at hLH
      | joinB a b =>
        rw [isAvl_join_iff] at hl
        obtain ⟨ha, hb, hb1, hb2⟩ := hl
        have hlt : sizeOf b + sizeOf r < m := by
          simp only [Buf.joinB.sizeOf_spec] at hm; omega
        obtain ⟨ih1, ih2, ih3⟩ := ih _ hlt b r le_rfl hb hr
        rw [concatBalanced.eq_def, if_pos hLH]
        show isAvl (rebalanceJoin (.joinB a (concatBalanced b r))) = true ∧
            max (height (Buf.joinB a b)) (height r) ≤
              height (rebalanceJoin (.joinB a (concatBalanced b r))) ∧
            height (rebalanceJoin (.joinB a (concatBalanced b r))) ≤
              max (height (Buf.joinB a b)) (height r) + 1
        simp only [height_joinB] at hLH ⊢
        obtain ⟨rb1, rb2, rb3, rb4⟩ :=
          rebalanceJoin_spec a (concatBalanced b r) ha ih1 (by omega) (by omega)
        refine ⟨rb1, ?_, ?_⟩
        · by_cases hd : height a ≤ height (concatBalanced b r) + 1 ∧
              height (concatBalanced b r) ≤ height a + 1
          · have := rb4 hd.1 hd.2; omega
          · rw [not_and_or] at hd; omega
        · omega
    · by_cases hRH : height r > height l + 1
      · have hlp := height_pos l
        cases r with
        | str d => simp [height] at hRH
        | mulB b n => simp [height] at hRH
        | slice1 b s e => simp [height] at hRH
        | sliceN b s e st => simp [height] at hRH
        | joinB b c =>
          rw [isAvl_join_iff] at hr
          obtain ⟨hb, hc, hb1, hb2⟩ := hr
          have hlt : sizeOf l + sizeOf b < m := by
            simp only [Buf.joinB.sizeOf_spec] at hm; omega
          obtain ⟨ih1, ih2, ih3⟩ := ih _ hlt l b le_rfl hl hb
          rw [concatBalanced.eq_def, if_neg hLH, if_pos hRH]
          show isAvl (rebalanceJoin (.joinB (concatBalanced l b) c)) = true ∧
              max (height l) (height (Buf.joinB b c)) ≤
                height (rebalanceJoin (.joinB (concatBalanced l b) c)) ∧
              height (rebalanceJoin (.joinB (concatBalanced l b) c)) ≤
                max (height l) (height (Buf.joinB b c)) + 1
          simp only [height_joinB] at hRH ⊢
          obtain ⟨rb1, rb2, rb3, rb4⟩ :=
            rebalanceJoin_spec (concatBalanced l b) c ih1 hc (by omega) (by omega)
          refine ⟨rb1, ?_, ?_⟩
          · by_cases hd : height (concatBalanced l b) ≤ height c + 1 ∧
                height c ≤ height (concatBalanced l b) + 1
            · have := rb4 hd.1 hd.2; omega
            · rw [not_and_or] at hd; omega
          · omega
      · rw [concatBalanced.eq_def, if_neg hLH, if_neg hRH]
        obtain ⟨rb1, rb2, rb3, rb4⟩ :=
          rebalanceJoin_spec l r hl hr (by omega) (by omega)
        have := rb4 (by omega) (by omega)
        exact ⟨rb1, by omega, by omega⟩

/-- C1: for every pair of buffer trees whose Join nodes all satisfy the AVL
balance condition, `concat_balanced(left, right)` returns a tree in which
every Join node satisfies `|height(left child) - height(right child)| <= 1`
(height of a non-Join node is 1, of a Join node `1 + max` of the children);
hence the invariant is maintained by any sequence of `concat_balanced`
calls starting from leaves. -/
theorem C1_concat_balanced_preserves_avl (l r : Buf)
    (hl : isAvl l = true) (hr : isAvl r = true) :
    isAvl (concatBalanced l r) = true :=
  (concatBalanced_spec (sizeOf l + sizeOf r) l r le_rfl hl hr).1

/-- Witness for C1 at concrete trees: an unbalanced pair of AVL inputs. -/
theorem C1_concat_balanced_preserves_avl_witness :
    isAvl (.joinB (.joinB (.str [97]) (.str [98])) (.str [99])) = true ∧
    isAvl (.str [100]) = true ∧
    isAvl (concatBalanced
      (.joinB (.joinB (.str [97]) (.str [98])) (.str [99])) (.str [100])) = true :=
  ⟨by decide, by decide,
    C1_concat_balanced_preserves_avl _ _ (by decide) (by decide)⟩

/-! ### Elementary length/value claims -/

/-- For a positive step, membership of index `i ≥ 0` in the strided slice is
exactly "the progression element `s + i*st` lies strictly before `e`". -/
theorem compute_len_pos_iff (s e st i : Int) (hst : 0 < st) (hi : 0 ≤ i) :
    i < compute_len s e st ↔ s + i * st < e := by
  unfold compute_len
  rw [if_pos hst]
  by_cases hse : s ≥ e
  · rw [if_pos hse]
    constructor
    · intro h; omega
    · intro h
      have hnn : 0 ≤ i * st := mul_nonneg hi (le_of_lt hst)
      omega
  · rw [if_neg hse]
    rw [Int.tdiv_eq_ediv (by omega) (by omega)]
    rw [Int.lt_iff_add_one_le, Int.le_ediv_iff_mul_le hst, add_one_mul]
    omega

/-- For a negative step, membership of index `i ≥ 0` in the strided slice is
exactly "the progression element `s + i*st` lies strictly after `e`". -/
theorem compute_len_neg_iff (s e st i : Int) (hst : st < 0) (hi : 0 ≤ i) :
    i < compute_len s e st ↔ e < s + i * st := by
  unfold compute_len
  rw [if_neg (by omega)]
  by_cases hse : s ≤ e
  · rw [if_pos hse]
    constructor
    · intro h; omega
    · intro h
      have hnp : i * st ≤ 0 := mul_nonpos_iff.mpr (Or.inl ⟨hi, le_of_lt hst⟩)
      omega
  · rw [if_neg hse]
    rw [Int.tdiv_eq_ediv (by omega) (by omega)]
    rw [Int.lt_iff_add_one_le, Int.le_ediv_iff_mul_le (by omega), add_one_mul]
    have hms : i * -st = -(i * st) := by ring
    omega

/-- C2: for a repeat node over a base of positive length, with a repeat
count `n ≥ 0` and any index `0 ≤ i < length(A)*n`, `value(i)` is
`A.value(i mod length(A))`, and `length()` is `length(A) * n`. -/
theorem C2_repeat_periodicity (A : Buf) (n i : Int) (hA : 0 < length A)
    (hn : 0 ≤ n) (h0 : 0 ≤ i) (hi : i < length A * n) :
    value (.mulB A n) i = value A (i % length A) ∧
    length (.mulB A n) = length A * n := by
  refine ⟨?_, rfl⟩
  show (if length A ≤ 0 then none else value A (i.tmod (length A))) = value A (i % length A)
  rw [if_neg (by omega), Int.tmod_eq_emod h0 (by omega)]

/-- Witness for C2: `repeat([10,20,30], 2)` at index 4. -/
theorem C2_repeat_periodicity_witness :
    value (.mulB (.str [10,20,30]) 2) 4 = value (.str [10,20,30]) (4 % length (.str [10,20,30])) ∧
    length (.mulB (.str [10,20,30]) 2) = length (.str [10,20,30]) * 2 :=
  C2_repeat_periodicity (.str [10,20,30]) 2 4 (by decide) (by decide) (by decide) (by decide)

/-- C3: join length additivity and index correctness across the join
boundary. -/
theorem C3_join_value (A B : Buf) (i : Int) :
    length (.joinB A B) = length A + length B ∧
    (0 ≤ i → i < length A → value (.joinB A B) i = value A i) ∧
    (length A ≤ i → i < length A + length B →
      value (.joinB A B) i = value B (i - length A)) := by
  refine ⟨rfl, fun _ h => ?_, fun h _ => ?_⟩
  · show (if i < length A then value A i else value B (i - length A)) = value A i
    rw [if_pos h]
  · show (if i < length A then value A i else value B (i - length A)) = value B (i - length A)
    rw [if_neg (by omega)]

/-- Witness for C3 at `join("ab", "cd")`, index 2 (right side) and 1 (left). -/
theorem C3_join_value_witness :
    value (.joinB (.str [97,98]) (.str [99,100])) 2
        = value (.str [99,100]) (2 - length (.str [97,98])) ∧
    value (.joinB (.str [97,98]) (.str [99,100])) 1 = value (.str [97,98]) 1 :=
  ⟨(C3_join_value (.str [97,98]) (.str [99,100]) 2).2.2 (by decide) (by decide),
   (C3_join_value (.str [97,98]) (.str [99,100]) 1).2.1 (by decide) (by decide)⟩

/-- C4: a contiguous slice reads `A.value(s+i)`, a strided slice reads
`A.value(s + i*step)`, and the strided length counts the arithmetic
progression strictly before `e` (positive step) or strictly after `e`
(negative step). -/
theorem C4_slice_roundtrip (A : Buf) (s e st i : Int) (hst : st ≠ 0) (hi : 0 ≤ i) :
    (i < length (.slice1 A s e) → value (.slice1 A s e) i = value A (s + i)) ∧
    (i < length (.sliceN A s e st) → value (.sliceN A s e st) i = value A (s + i * st)) ∧
    (i < length (.sliceN A s e st) ↔
      (if 0 < st then s + i * st < e else e < s + i * st)) := by
  refine ⟨fun _ => rfl, fun _ => rfl, ?_⟩
  by_cases h : 0 < st
  · rw [if_pos h]
    exact compute_len_pos_iff s e st i h hi
  · rw [if_neg h]
    exact compute_len_neg_iff s e st i (by omega) hi

/-- Witness for C4: `slice("hello", 4, 0, -1)` at index 1 (the scenario-3
strided slice) — length membership and value round-trip. -/
theorem C4_slice_roundtrip_witness :
    ((1:Int) < length (.sliceN (.str [104,101,108,108,111]) 4 0 (-1)) →
      value (.sliceN (.str [104,101,108,108,111]) 4 0 (-1)) 1
        = value (.str [104,101,108,108,111]) (4 + 1 * (-1))) ∧
    ((1:Int) < length (.sliceN (.str [104,101,108,108,111]) 4 0 (-1)) ↔
      (if (0:Int) < -1 then (4:Int) + 1 * (-1) < 0 else (0:Int) < 4 + 1 * (-1))) :=
  ⟨(C4_slice_roundtrip (.str [104,101,108,108,111]) 4 0 (-1) 1 (by decide) (by decide)).2.1,
   (C4_slice_roundtrip (.str [104,101,108,108,111]) 4 0 (-1) 1 (by decide) (by decide)).2.2⟩

/-- C9: a repeat node over a zero-length base has length 0, its `copy` is a
no-op on the destination, and both character searches return `-1` — no
division or modulo by zero is reached. -/
theorem C9_zero_base_repeat (A : Buf) (n w : Int) (tgt : List Nat)
    (off start count s e : Int) (ch : Nat) (hn : 0 ≤ n) (hA : length A = 0) :
    length (.mulB A n) = 0 ∧
    copyBuf w (.mulB A n) tgt off start count = some tgt ∧
    findc (.mulB A n) s e ch = some (-1) ∧
    rfindc (.mulB A n) s e ch = some (-1) := by
  refine ⟨?_, ?_, ?_, ?_⟩
  · show length A * n = 0
    rw [hA, zero_mul]
  · show (if length A ≤ 0 then some tgt else _) = some tgt
    rw [if_pos (by omega)]
  · show (if length A ≤ 0 then some (-1) else _) = some (-1)
    rw [if_pos (by omega)]
  · show (if length A ≤ 0 then some (-1) else _) = some (-1)
    rw [if_pos (by omega)]

/-- Witness for C9: repeating the empty leaf three times. -/
theorem C9_zero_base_repeat_witness :
    length (.mulB (.str []) 3) = 0 ∧
    copyBuf 1 (.mulB (.str []) 3) [7,7] 0 0 2 = some [7,7] ∧
    findc (.mulB (.str []) 3) 0 5 97 = some (-1) ∧
    rfindc (.mulB (.str []) 3) 0 5 97 = some (-1) :=
  C9_zero_base_repeat (.str []) 3 1 [7,7] 0 0 2 0 5 97 (by decide) (by decide)

/-! ### Hash / compare consistency -/

theorem listCmp_eq_zero : ∀ {d1 d2 : List Nat}, listCmp d1 d2 = 0 → d1 = d2 := by
  intro d1
  induction d1 with
  | nil => intro d2 h; cases d2 with
    | nil => rfl
    | cons b bs => simp [listCmp] at h
  | cons a as ih =>
      intro d2 h
      cases d2 with
      | nil => simp [listCmp] at h
      | cons b bs =>
          simp only [listCmp] at h
          by_cases h1 : a < b
          · rw [if_pos h1] at h; omega
          · rw [if_neg h1] at h
            by_cases h2 : a > b
            · rw [if_pos h2] at h; omega
            · rw [if_neg h2] at h
              have hab : a = b := by omega
              rw [hab, ih h]

theorem cmpLoop_zero (a b : Buf) (len1 len2 : Int) : ∀ (fu : Nat) (i : Int),
    cmpLoop a b len1 len2 i fu = some 0 →
    (¬ len1 < len2 ∧ ¬ len2 < len1) ∧
    ∀ j : Int, i ≤ j → j < i + fu → value a j = value b j := by
  intro fu
  induction fu with
  | zero =>
      intro i h
      simp only [cmpLoop] at h
      refine ⟨?_, fun j hj1 hj2 => absurd hj2 (by push_cast; omega)⟩
      by_cases h1 : len1 < len2
      · rw [if_pos h1] at h; simp at h
      · rw [if_neg h1] at h
        by_cases h2 : len1 > len2
        · rw [if_pos h2] at h; simp at h
        · exact ⟨h1, by omega⟩
  | succ fu ih =>
      intro i h
      simp only [cmpLoop] at h
      cases hva : value a i with
      | none => rw [hva] at h; simp at h
      | some c1 =>
          rw [hva] at h
          cases hvb : value b i with
          | none => rw [hvb] at h; simp at h
          | some c2 =>
              rw [hvb] at h
              simp only [Option.bind_eq_bind, Option.some_bind] at h
              by_cases h1 : c1 < c2
              · rw [if_pos h1] at h; simp at h
              · rw [if_neg h1] at h
                by_cases h2 : c1 > c2
                · rw [if_pos h2] at h; simp at h
                · rw [if_neg h2] at h
                  have hc : c1 = c2 := by omega
                  obtain ⟨hlen, hvals⟩ := ih (i+1) h
                  refine ⟨hlen, fun j hj1 hj2 => ?_⟩
                  by_cases hji : j = i
                  · rw [hji, hva, hvb, hc]
                  · exact hvals j (by omega) (by push_cast at hj2 ⊢; omega)

theorem computeHashAux_congr (a b : Buf) : ∀ (fu : Nat) (x : Int) (i : Int),
    (∀ j : Int, i ≤ j → j < i + fu → value a j = value b j) →
    computeHashAux a x i fu = computeHashAux b x i fu := by
  intro fu
  induction fu with
  | zero => intro x i _; rfl
  | succ fu ih =>
      intro x i h
      simp only [computeHashAux]
      rw [h i (le_refl i) (by push_cast; omega)]
      cases hv : value b i with
      | none => rfl
      | some c =>
          simp only [Option.bind_eq_bind, Option.some_bind]
          exact ih _ (i+1) (fun j h1 h2 => h j (by omega) (by push_cast at h2 ⊢; omega))

/-- Two buffers that the generic comparison loop declares equal hash
identically. -/
theorem hash_eq_of_cmpLoop_zero (a b : Buf)
    (h : cmpLoop a b (length a) (length b) 0
      (if length a < length b then length a else length b).toNat = some 0) :
    hashB a = hashB b := by
  obtain ⟨⟨hl1, hl2⟩, hvals⟩ := cmpLoop_zero a b (length a) (length b) _ 0 h
  have hlen : length a = length b := by omega
  show compute_hash a = compute_hash b
  unfold compute_hash
  rw [hlen, computeHashAux_congr a b (length b).toNat 0 0 ?_]
  intro j hj1 hj2
  refine hvals j hj1 ?_
  rw [if_neg (by omega)]
  omega

/-- `cmp(A,B) == 0` forces equal hashes (shared core of C7/C10). -/
theorem hash_eq_of_cmp_zero (a b : Buf) (h : cmpBuf a b = some 0) :
    hashB a = hashB b := by
  cases a with
  | str d1 =>
      cases b with
      | str d2 =>
          have h0 : listCmp d1 d2 = 0 := Option.some.inj h
          rw [listCmp_eq_zero h0]
      | joinB l r => exact hash_eq_of_cmpLoop_zero _ _ h
      | mulB b' n => exact hash_eq_of_cmpLoop_zero _ _ h
      | slice1 b' s e => exact hash_eq_of_cmpLoop_zero _ _ h
      | sliceN b' s e st => exact hash_eq_of_cmpLoop_zero _ _ h
  | joinB l r => exact hash_eq_of_cmpLoop_zero _ _ h
  | mulB b' n => exact hash_eq_of_cmpLoop_zero _ _ h
  | slice1 b' s e => exact hash_eq_of_cmpLoop_zero _ _ h
  | sliceN b' s e st => exact hash_eq_of_cmpLoop_zero _ _ h

/-- C7: hash/compare consistency — if `cmp(A,B) == 0` then
`hash(A) == hash(B)`, equivalently unequal hashes imply `cmp != 0`; the
content hash is a function of the code-point sequence alone. -/
theorem C7_hash_cmp_consistency (a b : Buf) :
    (cmpBuf a b = some 0 → hashB a = hashB b) ∧
    (hashB a ≠ hashB b → cmpBuf a b ≠ some 0) :=
  ⟨hash_eq_of_cmp_zero a b, fun hne hc => hne (hash_eq_of_cmp_zero a b hc)⟩

/-- Witness for C7: a join and the flat string with the same contents. -/
theorem C7_hash_cmp_consistency_witness :
    cmpBuf (.joinB (.str [97]) (.str [98])) (.str [97,98]) = some 0 ∧
    hashB (.joinB (.str [97]) (.str [98])) = hashB (.str [97,98]) :=
  ⟨by decide,
   (C7_hash_cmp_consistency (.joinB (.str [97]) (.str [98])) (.str [97,98])).1 (by decide)⟩

/-! ### Well-formedness foundations -/

theorem compute_len_nonneg (s e st : Int) : 0 ≤ compute_len s e st := by
  unfold compute_len
  by_cases h1 : st > 0
  · rw [if_pos h1]
    by_cases h2 : s ≥ e
    · rw [if_pos h2]
    · rw [if_neg h2]; exact Int.tdiv_nonneg (by omega) (by omega)
  · rw [if_neg h1]
    by_cases h2 : s ≤ e
    · rw [if_pos h2]
    · rw [if_neg h2]; exact Int.tdiv_nonneg (by omega) (by omega)

theorem length_nonneg : ∀ (b : Buf), WF b → 0 ≤ length b := by
  intro b
  induction b with
  | str d => intro _; exact Int.natCast_nonneg _
  | joinB l r ihl ihr =>
      intro hw
      obtain ⟨h1, h2⟩ := hw
      show 0 ≤ length l + length r
      have := ihl h1; have := ihr h2; omega
  | mulB b n ih =>
      intro hw
      obtain ⟨h1, h2⟩ := hw
      exact mul_nonneg (ih h1) h2
  | slice1 b s e ih =>
      intro _
      show 0 ≤ if e > s then e - s else 0
      split <;> omega
  | sliceN b s e st ih => intro _; exact compute_len_nonneg s e st

theorem value_isSome : ∀ (b : Buf), WF b → ∀ i : Int, 0 ≤ i → i < length b →
    ∃ v, value b i = some v := by
  intro b
  induction b with
  | str d =>
      intro _ i h0 hi
      have hi' : i < (d.length : Int) := hi
      show ∃ v, (if i < 0 ∨ (d.length : Int) ≤ i then none else d.get? i.toNat) = some v
      rw [if_neg (by omega)]
      cases hg : d.get? i.toNat with
      | none =>
          have hge := List.get?_eq_none.mp hg
          exfalso; omega
      | some v => exact ⟨v, rfl⟩
  | joinB l r ihl ihr =>
      intro hw i h0 hi
      obtain ⟨h1, h2⟩ := hw
      have hlr : length (.joinB l r) = length l + length r := rfl
      show ∃ v, (if i < length l then value l i else value r (i - length l)) = some v
      by_cases hc : i < length l
      · rw [if_pos hc]; exact ihl h1 i h0 hc
      · rw [if_neg hc]
        exact ihr h2 (i - length l) (by omega) (by rw [hlr] at hi; omega)
  | mulB b n ih =>
      intro hw i h0 hi
      obtain ⟨h1, h2⟩ := hw
      have hL : 0 ≤ length b := length_nonneg b h1
      have hmul : length (.mulB b n) = length b * n := rfl
      have hpos : 0 < length b := by
        by_contra hc
        have hz : length b = 0 := by omega
        rw [hmul, hz, zero_mul] at hi
        omega
      show ∃ v, (if length b ≤ 0 then none else value b (i.tmod (length b))) = some v
      rw [if_neg (by omega)]
      exact ih h1 _ (Int.tmod_nonneg _ h0) (Int.tmod_lt_of_pos i hpos)
  | slice1 b s e ih =>
      intro hw i h0 hi
      obtain ⟨h1, h2⟩ := hw
      have hse : s < e := by
        by_contra hc
        have hz : length (.slice1 b s e) = 0 := by
          show (if e > s then e - s else 0) = 0
          rw [if_neg (by omega)]
        omega
      obtain ⟨hs0, heb⟩ := h2 hse
      have hlen : length (.slice1 b s e) = e - s := by
        show (if e > s then e - s else 0) = e - s
        rw [if_pos hse]
      show ∃ v, value b (s + i) = some v
      exact ih h1 (s + i) (by omega) (by omega)
  | sliceN b s e st ih =>
      intro hw i h0 hi
      obtain ⟨h1, h2, h3⟩ := hw
      obtain ⟨hlo, hhi⟩ := h3 i h0 hi
      exact ih h1 _ hlo hhi

/-! ### Equality fast path (C10) -/

theorem computeHashAux_isSome (b : Buf) : ∀ (fu : Nat) (x i : Int),
    (∀ j : Int, i ≤ j → j < i + fu → (value b j).isSome) →
    ∃ y, computeHashAux b x i fu = some y := by
  intro fu
  induction fu with
  | zero => intro x i _; exact ⟨x, rfl⟩
  | succ fu ih =>
      intro x i h
      simp only [computeHashAux]
      cases hv : value b i with
      | none =>
          have := h i (le_refl i) (by push_cast; omega)
          rw [hv] at this; simp at this
      | some c =>
          simp only [hv, Option.bind_eq_bind, Option.some_bind]
          exact ih _ (i+1) (fun j h1 h2 => h j (by omega) (by push_cast at h2 ⊢; omega))

theorem hashB_isSome (b : Buf) (hw : WF b) : ∃ x, hashB b = some x := by
  have hvals : ∀ j : Int, 0 ≤ j → j < 0 + ((length b).toNat : Int) →
      (value b j).isSome := by
    intro j h1 h2
    have hlen := length_nonneg b hw
    obtain ⟨v, hv⟩ := value_isSome b hw j h1 (by omega)
    rw [hv]; rfl
  obtain ⟨y, hy⟩ := computeHashAux_isSome b (length b).toNat 0 0 hvals
  refine ⟨if y = -1 then -2 else y, ?_⟩
  show compute_hash b = _
  unfold compute_hash
  rw [hy]; rfl

theorem cmpLoop_isSome (a b : Buf) (len1 len2 : Int) : ∀ (fu : Nat) (i : Int),
    (∀ j : Int, i ≤ j → j < i + fu → (value a j).isSome ∧ (value b j).isSome) →
    ∃ c, cmpLoop a b len1 len2 i fu = some c := by
  intro fu
  induction fu with
  | zero => intro i _; exact ⟨_, rfl⟩
  | succ fu ih =>
      intro i h
      have hj := h i (le_refl i) (by push_cast; omega)
      simp only [cmpLoop]
      cases hva : value a i with
      | none => rw [hva] at hj; simp at hj
      | some c1 =>
          cases hvb : value b i with
          | none => rw [hvb] at hj; simp at hj
          | some c2 =>
              simp only [hva, hvb, Option.bind_eq_bind, Option.some_bind]
              by_cases h1 : c1 < c2
              · rw [if_pos h1]; exact ⟨-1, rfl⟩
              · rw [if_neg h1]
                by_cases h2 : c1 > c2
                · rw [if_pos h2]; exact ⟨1, rfl⟩
                · rw [if_neg h2]
                  exact ih (i+1) (fun j ha hb => h j (by omega) (by push_cast at hb ⊢; omega))

theorem cmpBuf_isSome (a b : Buf) (ha : WF a) (hb : WF b) :
    ∃ c, cmpBuf a b = some c := by
  have hgen : ∃ c, cmpLoop a b (length a) (length b) 0
      (if length a < length b then length a else length b).toNat = some c := by
    apply cmpLoop_isSome
    intro j h1 h2
    have hla := length_nonneg a ha
    have hlb := length_nonneg b hb
    constructor
    · obtain ⟨v, hv⟩ := value_isSome a ha j h1 (by split at h2 <;> omega)
      rw [hv]; rfl
    · obtain ⟨v, hv⟩ := value_isSome b hb j h1 (by split at h2 <;> omega)
      rw [hv]; rfl
  cases a <;> cases b <;> first
    | exact ⟨listCmp _ _, rfl⟩
    | exact hgen

/-- C10: the equality/inequality comparison of `LStr_richcompare`, which
short-circuits on unequal cached hashes before calling `cmp`, agrees with a
comparison defined purely by `cmp` (`==` iff `cmp == 0`, `!=` iff
`cmp != 0`) on every pair of well-formed buffers — the hash fast path never
changes the outcome. -/
theorem C10_richcompare_hash_fast_path (a b : Buf) (ha : WF a) (hb : WF b) :
    richcompareEq a b = pureEq a b ∧ richcompareNe a b = pureNe a b := by
  obtain ⟨xa, hxa⟩ := hashB_isSome a ha
  obtain ⟨xb, hxb⟩ := hashB_isSome b hb
  obtain ⟨c, hc⟩ := cmpBuf_isSome a b ha hb
  unfold richcompareEq richcompareNe pureEq pureNe
  rw [hxa, hxb, hc]
  by_cases hx : xa = xb
  · rw [hx]
    simp
  · have hcne : c ≠ 0 := by
      intro h0
      rw [h0] at hc
      have heq := hash_eq_of_cmp_zero a b hc
      rw [hxa, hxb] at heq
      exact hx (Option.some.inj heq)
    simp only [Option.bind_eq_bind, Option.some_bind]
    refine ⟨?_, ?_⟩
    · rw [if_pos hx]; simp [hcne]
    · rw [if_pos hx]; simp [hcne]

/-- Witness for C10: a join versus a flat leaf with different contents. -/
theorem C10_richcompare_hash_fast_path_witness :
    WF (.joinB (.str [97]) (.str [98])) ∧ WF (.str [97,99]) ∧
    (richcompareEq (.joinB (.str [97]) (.str [98])) (.str [97,99])
        = pureEq (.joinB (.str [97]) (.str [98])) (.str [97,99]) ∧
      richcompareNe (.joinB (.str [97]) (.str [98])) (.str [97,99])
        = pureNe (.joinB (.str [97]) (.str [98])) (.str [97,99])) :=
  ⟨⟨by simp [WF], by simp [WF]⟩, by simp [WF],
   C10_richcompare_hash_fast_path _ _ ⟨by simp [WF], by simp [WF]⟩ (by simp [WF])⟩

/-! ### Unicode kind (C8) -/

theorem sliceKindScan2_spec (self : Buf) : ∀ (fu : Nat) (i : Int),
    (∀ j : Int, i ≤ j → j < i + fu → (value self j).isSome) →
    ((∃ j : Int, i ≤ j ∧ j < i + fu ∧ ∃ v, value self j = some v ∧ 256 ≤ v) ∧
      sliceKindScan2 self i fu = some 2) ∨
    ((∀ j : Int, i ≤ j → j < i + fu → ∀ v, value self j = some v → v < 256) ∧
      sliceKindScan2 self i fu = some 1) := by
  intro fu
  induction fu with
  | zero =>
      intro i _
      exact Or.inr ⟨fun j h1 h2 => absurd h2 (by push_cast; omega), rfl⟩
  | succ fu ih =>
      intro i hdef
      have hi := hdef i (le_refl i) (by push_cast; omega)
      cases hv : value self i with
      | none => rw [hv] at hi; simp at hi
      | some v =>
          have hstep : sliceKindScan2 self i (fu+1)
              = if 256 ≤ v then some 2 else sliceKindScan2 self (i+1) fu := by
            simp only [sliceKindScan2, hv, Option.bind_eq_bind, Option.some_bind]
            split <;> rfl
          by_cases hge : 256 ≤ v
          · rw [hstep, if_pos hge]
            exact Or.inl ⟨⟨i, le_refl i, by push_cast; omega, v, hv, hge⟩, rfl⟩
          · rw [hstep, if_neg hge]
            rcases ih (i+1) (fun j h1 h2 => hdef j (by omega) (by push_cast at h2 ⊢; omega)) with
              ⟨⟨j, hj1, hj2, w, hw, hwge⟩, hsc⟩ | ⟨hall, hsc⟩
            · exact Or.inl ⟨⟨j, by omega, by push_cast at hj2 ⊢; omega, w, hw, hwge⟩, hsc⟩
            · refine Or.inr ⟨fun j h1 h2 w hw => ?_, hsc⟩
              by_cases hji : j = i
              · rw [hji, hv] at hw
                have := Option.some.inj hw
                omega
              · exact hall j (by omega) (by push_cast at h2 ⊢; omega) w hw

theorem sliceKindScan4_spec (self : Buf) : ∀ (fu : Nat) (i k : Int),
    (k = 1 ∨ k = 2) →
    (∀ j : Int, i ≤ j → j < i + fu → (value self j).isSome) →
    ((∃ j : Int, i ≤ j ∧ j < i + fu ∧ ∃ v, value self j = some v ∧ 65536 ≤ v) ∧
        sliceKindScan4 self k i fu = some 4) ∨
    ((∀ j : Int, i ≤ j → j < i + fu → ∀ v, value self j = some v → v < 65536) ∧
      (((∃ j : Int, i ≤ j ∧ j < i + fu ∧ ∃ v, value self j = some v ∧ 256 ≤ v) ∧
          sliceKindScan4 self k i fu = some 2) ∨
       ((∀ j : Int, i ≤ j → j < i + fu → ∀ v, value self j = some v → v < 256) ∧
          sliceKindScan4 self k i fu = some k))) := by
  intro fu
  induction fu with
  | zero =>
      intro i k _ _
      exact Or.inr ⟨fun j h1 h2 => absurd h2 (by push_cast; omega),
        Or.inr ⟨fun j h1 h2 => absurd h2 (by push_cast; omega), rfl⟩⟩
  | succ fu ih =>
      intro i k hk hdef
      have hi := hdef i (le_refl i) (by push_cast; omega)
      cases hv : value self i with
      | none => rw [hv] at hi; simp at hi
      | some v =>
          have hstep : sliceKindScan4 self k i (fu+1)
              = if 65536 ≤ v then some 4
                else if 256 ≤ v then sliceKindScan4 self (if k < 2 then 2 else k) (i+1) fu
                else sliceKindScan4 self k (i+1) fu := by
            simp only [sliceKindScan4, hv, Option.bind_eq_bind, Option.some_bind]
            split
            · rfl
            · rfl
          have hdef' : ∀ j : Int, i+1 ≤ j → j < (i+1) + fu → (value self j).isSome :=
            fun j h1 h2 => hdef j (by omega) (by push_cast at h2 ⊢; omega)
          by_cases hbig : 65536 ≤ v
          · rw [hstep, if_pos hbig]
            exact Or.inl ⟨⟨i, le_refl i, by push_cast; omega, v, hv, hbig⟩, rfl⟩
          · rw [hstep, if_neg hbig]
            by_cases hmid : 256 ≤ v
            · rw [if_pos hmid]
              have hk2 : (if k < 2 then (2:Int) else k) = 2 := by
                rcases hk with h | h <;> rw [h] <;> norm_num
              rw [hk2]
              rcases ih (i+1) 2 (Or.inr rfl) hdef' with
                ⟨⟨j, hj1, hj2, w, hw, hwge⟩, hsc⟩ | ⟨hall, hrest⟩
              · exact Or.inl ⟨⟨j, by omega, by push_cast at hj2 ⊢; omega, w, hw, hwge⟩, hsc⟩
              · refine Or.inr ⟨fun j h1 h2 w hw => ?_, ?_⟩
                · by_cases hji : j = i
                  · rw [hji, hv] at hw; have := Option.some.inj hw; omega
                  · exact hall j (by omega) (by push_cast at h2 ⊢; omega) w hw
                · rcases hrest with ⟨_, hsc⟩ | ⟨_, hsc⟩
                  · exact Or.inl ⟨⟨i, le_refl i, by push_cast; omega, v, hv, hmid⟩, hsc⟩
                  · exact Or.inl ⟨⟨i, le_refl i, by push_cast; omega, v, hv, hmid⟩, hsc⟩
            · rw [if_neg hmid]
              rcases ih (i+1) k hk hdef' with
                ⟨⟨j, hj1, hj2, w, hw, hwge⟩, hsc⟩ | ⟨hall, hrest⟩
              · exact Or.inl ⟨⟨j, by omega, by push_cast at hj2 ⊢; omega, w, hw, hwge⟩, hsc⟩
              · refine Or.inr ⟨fun j h1 h2 w hw => ?_, ?_⟩
                · by_cases hji : j = i
                  · rw [hji, hv] at hw; have := Option.some.inj hw; omega
                  · exact hall j (by omega) (by push_cast at h2 ⊢; omega) w hw
                · rcases hrest with ⟨⟨j, hj1, hj2, w, hw, hwge⟩, hsc⟩ | ⟨hall2, hsc⟩
                  · exact Or.inl ⟨⟨j, by omega, by push_cast at hj2 ⊢; omega, w, hw, hwge⟩, hsc⟩
                  · refine Or.inr ⟨fun j h1 h2 w hw => ?_, hsc⟩
                    by_cases hji : j = i
                    · rw [hji, hv] at hw; have := Option.some.inj hw; omega
                    · exact hall2 j (by omega) (by push_cast at h2 ⊢; omega) w hw

theorem minimalVals_mem (self : Buf) (i : Int) (h0 : 0 ≤ i) (hlen : i < length self) :
    (value self i).getD 0 ∈ minimalVals self := by
  unfold minimalVals
  have h1 : i.toNat ∈ List.range (length self).toNat := List.mem_range.mpr (by omega)
  refine List.mem_map.mpr ⟨i.toNat, h1, ?_⟩
  simp [Int.toNat_of_nonneg h0]

theorem minimalVals_any_false (self : Buf) (bound : Nat) (hb : 0 < bound)
    (hno : ∀ i : Int, 0 ≤ i → i < length self → ∀ v, value self i = some v → v < bound) :
    (minimalVals self).any (fun v => bound ≤ v) = false := by
  rw [List.any_eq_false]
  intro x hx
  unfold minimalVals at hx
  obtain ⟨kn, hkn, hxe⟩ := List.mem_map.mp hx
  have hkn2 := List.mem_range.mp hkn
  subst hxe
  cases hv2 : value self (kn : Int) with
  | none => simp [hv2]; omega
  | some w =>
      have hw := hno (kn : Int) (by omega) (by omega) w hv2
      simp [hv2]
      omega

theorem minimalKind_eq_four (self : Buf)
    (h : ∃ i : Int, 0 ≤ i ∧ i < length self ∧ ∃ v, value self i = some v ∧ 65536 ≤ v) :
    minimalKind self = 4 := by
  obtain ⟨i, h0, hlen, v, hv, hge⟩ := h
  have hyes : (minimalVals self).any (fun v => 65536 ≤ v) = true :=
    List.any_eq_true.mpr ⟨(value self i).getD 0, minimalVals_mem self i h0 hlen,
      by simp [hv]; omega⟩
  unfold minimalKind
  rw [hyes]
  simp

theorem minimalKind_eq_two (self : Buf)
    (hno : ∀ i : Int, 0 ≤ i → i < length self → ∀ v, value self i = some v → v < 65536)
    (hmid : ∃ i : Int, 0 ≤ i ∧ i < length self ∧ ∃ v, value self i = some v ∧ 256 ≤ v) :
    minimalKind self = 2 := by
  obtain ⟨i, h0, hlen, v, hv, hge⟩ := hmid
  have hno4 := minimalVals_any_false self 65536 (by norm_num) hno
  have hyes : (minimalVals self).any (fun v => 256 ≤ v) = true :=
    List.any_eq_true.mpr ⟨(value self i).getD 0, minimalVals_mem self i h0 hlen,
      by simp [hv]; omega⟩
  unfold minimalKind
  rw [hno4, hyes]
  simp

theorem minimalKind_eq_one (self : Buf)
    (hno : ∀ i : Int, 0 ≤ i → i < length self → ∀ v, value self i = some v → v < 256) :
    minimalKind self = 1 := by
  have hno4 := minimalVals_any_false self 65536 (by norm_num)
    (fun i h0 hl v hv => by have := hno i h0 hl v hv; omega)
  have hno2 := minimalVals_any_false self 256 (by norm_num) hno
  unfold minimalKind
  rw [hno4, hno2]
  simp

theorem kindBound_mono (k1 k2 : Int) (h1 : k1 = 1 ∨ k1 = 2 ∨ k1 = 4)
    (h2 : k2 = 1 ∨ k2 = 2 ∨ k2 = 4) (h : k1 ≤ k2) :
    kindBound k1 ≤ kindBound k2 := by
  rcases h1 with rfl | rfl | rfl <;> rcases h2 with rfl | rfl | rfl <;>
    simp [kindBound] <;> omega

/-- The shared body of `Slice1Buffer::unicode_kind` after the base kind is
known: the returned kind is in {1,2,4}, bounds every value of the slice, and
is the minimal sufficient width. -/
theorem sliceKind_case (self : Buf) (ok : Int)
    (hok3 : ok = 1 ∨ ok = 2 ∨ ok = 4)
    (hdef : ∀ j : Int, 0 ≤ j → j < length self → (value self j).isSome)
    (hb : ∀ i v, 0 ≤ i → i < length self → value self i = some v → v < kindBound ok) :
    ∃ k, (if ok = 1 then (pure 1 : Option Int)
          else if ok = 2 then sliceKindScan2 self 0 (length self).toNat
          else if ok = 4 then sliceKindScan4 self 1 0 (length self).toNat
          else pure (-1)) = some k ∧
      (k = 1 ∨ k = 2 ∨ k = 4) ∧
      (∀ i v, 0 ≤ i → i < length self → value self i = some v → v < kindBound k) ∧
      k = minimalKind self := by
  have hdef2 : ∀ j : Int, 0 ≤ j → j < 0 + ((length self).toNat : Int) →
      (value self j).isSome := fun j h1 h2 => hdef j h1 (by omega)
  rcases hok3 with rfl | rfl | rfl
  · refine ⟨1, by norm_num, Or.inl rfl, ?_, ?_⟩
    · intro i v h0 hl hv
      exact hb i v h0 hl hv
    · exact (minimalKind_eq_one self (fun i h0 hl v hv =>
        by have := hb i v h0 hl hv; simpa [kindBound] using this)).symm
  · rw [if_neg (by norm_num), if_pos rfl]
    rcases sliceKindScan2_spec self (length self).toNat 0 hdef2 with
      ⟨⟨j, hj1, hj2, w, hw, hwge⟩, hsc⟩ | ⟨hall, hsc⟩
    · refine ⟨2, hsc, Or.inr (Or.inl rfl), fun i v h0 hl hv => hb i v h0 hl hv, ?_⟩
      refine (minimalKind_eq_two self (fun i h0 hl v hv =>
        by have := hb i v h0 hl hv; simpa [kindBound] using this)
        ⟨j, hj1, by omega, w, hw, hwge⟩).symm
    · refine ⟨1, hsc, Or.inl rfl, ?_, ?_⟩
      · intro i v h0 hl hv
        have := hall i h0 (by omega) v hv
        simpa [kindBound] using this
      · exact (minimalKind_eq_one self (fun i h0 hl v hv =>
          hall i h0 (by omega) v hv)).symm
  · rw [if_neg (by norm_num), if_neg (by norm_num), if_pos rfl]
    rcases sliceKindScan4_spec self (length self).toNat 0 1 (Or.inl rfl) hdef2 with
      ⟨⟨j, hj1, hj2, w, hw, hwge⟩, hsc⟩ | ⟨hall, hrest⟩
    · refine ⟨4, hsc, Or.inr (Or.inr rfl), fun i v h0 hl hv => hb i v h0 hl hv, ?_⟩
      exact (minimalKind_eq_four self ⟨j, hj1, by omega, w, hw, hwge⟩).symm
    · rcases hrest with ⟨⟨j, hj1, hj2, w, hw, hwge⟩, hsc⟩ | ⟨hall2, hsc⟩
      · refine ⟨2, hsc, Or.inr (Or.inl rfl), ?_, ?_⟩
        · intro i v h0 hl hv
          have := hall i h0 (by omega) v hv
          simpa [kindBound] using this
        · refine (minimalKind_eq_two self
            (fun i h0 hl v hv => hall i h0 (by omega) v hv)
            ⟨j, hj1, by omega, w, hw, hwge⟩).symm
      · refine ⟨1, hsc, Or.inl rfl, ?_, ?_⟩
        · intro i v h0 hl hv
          have := hall2 i h0 (by omega) v hv
          simpa [kindBound] using this
        · exact (minimalKind_eq_one self
            (fun i h0 hl v hv => hall2 i h0 (by omega) v hv)).symm

/-- `Slice1Buffer::unicode_kind` with a known base kind: the slice kind is
defined, bounds every slice value, and is minimal. -/
theorem slice1_kind_full (b : Buf) (sI eI : Int) (hw : WF (.slice1 b sI eI))
    (ok : Int) (hok : unicodeKind b = some ok) (hok3 : ok = 1 ∨ ok = 2 ∨ ok = 4)
    (hobd : ∀ i v, 0 ≤ i → i < length b → value b i = some v → v < kindBound ok) :
    ∃ k, unicodeKind (.slice1 b sI eI) = some k ∧
      (k = 1 ∨ k = 2 ∨ k = 4) ∧
      (∀ i v, 0 ≤ i → i < length (.slice1 b sI eI) →
        value (.slice1 b sI eI) i = some v → v < kindBound k) ∧
      k = minimalKind (.slice1 b sI eI) := by
  have hdef : ∀ j : Int, 0 ≤ j → j < length (.slice1 b sI eI) →
      (value (.slice1 b sI eI) j).isSome := by
    intro j h1 h2
    obtain ⟨v, hv⟩ := value_isSome _ hw j h1 h2
    rw [hv]; rfl
  have hb : ∀ i v, 0 ≤ i → i < length (.slice1 b sI eI) →
      value (.slice1 b sI eI) i = some v → v < kindBound ok := by
    intro i v h0 hl hv
    have hse : sI < eI := by
      by_contra hc
      have hz : length (.slice1 b sI eI) = 0 := by
        show (if eI > sI then eI - sI else 0) = 0
        rw [if_neg (by omega)]
      omega
    obtain ⟨hs0, heb⟩ := hw.2 hse
    have hlen : length (.slice1 b sI eI) = eI - sI := by
      show (if eI > sI then eI - sI else 0) = eI - sI
      rw [if_pos hse]
    exact hobd (sI + i) v (by omega) (by omega) hv
  obtain ⟨k, hcase, hk3, hbd, hmin⟩ := sliceKind_case (.slice1 b sI eI) ok hok3 hdef hb
  refine ⟨k, ?_, hk3, hbd, hmin⟩
  show (do
    let ok ← unicodeKind b
    if ok = 1 then (pure 1 : Option Int)
    else if ok = 2 then sliceKindScan2 (.slice1 b sI eI) 0 (length (.slice1 b sI eI)).toNat
    else if ok = 4 then sliceKindScan4 (.slice1 b sI eI) 1 0 (length (.slice1 b sI eI)).toNat
    else pure (-1)) = some k
  rw [hok]
  simpa using hcase

/-- `SliceBuffer` inherits the same `unicode_kind`: defined, bounding, and
minimal for the strided slice. -/
theorem sliceN_kind_full (b : Buf) (sI eI st : Int) (hw : WF (.sliceN b sI eI st))
    (ok : Int) (hok : unicodeKind b = some ok) (hok3 : ok = 1 ∨ ok = 2 ∨ ok = 4)
    (hobd : ∀ i v, 0 ≤ i → i < length b → value b i = some v → v < kindBound ok) :
    ∃ k, unicodeKind (.sliceN b sI eI st) = some k ∧
      (k = 1 ∨ k = 2 ∨ k = 4) ∧
      (∀ i v, 0 ≤ i → i < length (.sliceN b sI eI st) →
        value (.sliceN b sI eI st) i = some v → v < kindBound k) ∧
      k = minimalKind (.sliceN b sI eI st) := by
  have hdef : ∀ j : Int, 0 ≤ j → j < length (.sliceN b sI eI st) →
      (value (.sliceN b sI eI st) j).isSome := by
    intro j h1 h2
    obtain ⟨v, hv⟩ := value_isSome _ hw j h1 h2
    rw [hv]; rfl
  have hb : ∀ i v, 0 ≤ i → i < length (.sliceN b sI eI st) →
      value (.sliceN b sI eI st) i = some v → v < kindBound ok := by
    intro i v h0 hl hv
    obtain ⟨hlo, hhi⟩ := hw.2.2 i h0 hl
    exact hobd (sI + i * st) v hlo hhi hv
  obtain ⟨k, hcase, hk3, hbd, hmin⟩ := sliceKind_case (.sliceN b sI eI st) ok hok3 hdef hb
  refine ⟨k, ?_, hk3, hbd, hmin⟩
  show (do
    let ok ← unicodeKind b
    if ok = 1 then (pure 1 : Option Int)
    else if ok = 2 then sliceKindScan2 (.sliceN b sI eI st) 0 (length (.sliceN b sI eI st)).toNat
    else if ok = 4 then sliceKindScan4 (.sliceN b sI eI st) 1 0 (length (.sliceN b sI eI st)).toNat
    else pure (-1)) = some k
  rw [hok]
  simpa using hcase

/-- Every node's `unicode_kind` is defined, lies in {1,2,4}, and is an upper
bound for every reachable value (but not necessarily minimal — see C8). -/
theorem unicodeKind_spec : ∀ (b : Buf), WF b → ∃ k, unicodeKind b = some k ∧
    (k = 1 ∨ k = 2 ∨ k = 4) ∧
    (∀ i v, 0 ≤ i → i < length b → value b i = some v → v < kindBound k) := by
  intro b
  induction b with
  | str d =>
      intro hw
      have hmem : ∀ (i : Int) (v : Nat), value (.str d) i = some v → v ∈ d := by
        intro i v hv
        show v ∈ d
        by_cases hc : i < 0 ∨ (d.length : Int) ≤ i
        · rw [show value (.str d) i
            = (if i < 0 ∨ (d.length : Int) ≤ i then none else d.get? i.toNat) from rfl,
            if_pos hc] at hv
          exact absurd hv (by simp)
        · rw [show value (.str d) i
            = (if i < 0 ∨ (d.length : Int) ≤ i then none else d.get? i.toNat) from rfl,
            if_neg hc] at hv
          exact List.get?_mem hv
      show ∃ k, some (strKind d) = some k ∧ _
      unfold strKind
      by_cases hbig : d.any (fun v => 65536 ≤ v)
      · rw [if_pos hbig]
        refine ⟨4, rfl, Or.inr (Or.inr rfl), fun i v h0 hl hv => ?_⟩
        have := hw v (hmem i v hv)
        simpa [kindBound] using this
      · rw [if_neg hbig]
        have hnb : ∀ x ∈ d, x < 65536 := by simpa using hbig
        by_cases hmid : d.any (fun v => 256 ≤ v)
        · rw [if_pos hmid]
          refine ⟨2, rfl, Or.inr (Or.inl rfl), fun i v h0 hl hv => ?_⟩
          have := hnb v (hmem i v hv)
          simpa [kindBound] using this
        · rw [if_neg hmid]
          have hnm : ∀ x ∈ d, x < 256 := by simpa using hmid
          refine ⟨1, rfl, Or.inl rfl, fun i v h0 hl hv => ?_⟩
          have := hnm v (hmem i v hv)
          simpa [kindBound] using this
  | joinB l r ihl ihr =>
      intro hw
      obtain ⟨hwl, hwr⟩ := hw
      obtain ⟨kl, hkl, hkl3, hbl⟩ := ihl hwl
      obtain ⟨kr, hkr, hkr3, hbr⟩ := ihr hwr
      have heq : unicodeKind (.joinB l r) = some (max kl kr) := by
        show (do
          let kl ← unicodeKind l
          let kr ← unicodeKind r
          pure (max kl kr)) = some (max kl kr)
        rw [hkl, hkr]
        rfl
      refine ⟨max kl kr, heq, ?_, ?_⟩
      · rcases hkl3 with rfl | rfl | rfl <;> rcases hkr3 with rfl | rfl | rfl <;>
          norm_num
      · intro i v h0 hl hv
        have hjl : length (.joinB l r) = length l + length r := rfl
        rw [show value (.joinB l r) i
          = (if i < length l then value l i else value r (i - length l)) from rfl] at hv
        by_cases hc : i < length l
        · rw [if_pos hc] at hv
          exact lt_of_lt_of_le (hbl i v h0 hc hv)
            (kindBound_mono kl (max kl kr) hkl3
              (by rcases hkl3 with rfl | rfl | rfl <;> rcases hkr3 with rfl | rfl | rfl <;> norm_num)
              (le_max_left _ _))
        · rw [if_neg hc] at hv
          rw [hjl] at hl
          exact lt_of_lt_of_le (hbr (i - length l) v (by omega) (by omega) hv)
            (kindBound_mono kr (max kl kr) hkr3
              (by rcases hkl3 with rfl | rfl | rfl <;> rcases hkr3 with rfl | rfl | rfl <;> norm_num)
              (le_max_right _ _))
  | mulB b n ih =>
      intro hw
      obtain ⟨hwb, hn⟩ := hw
      obtain ⟨k, hk, hk3, hbd⟩ := ih hwb
      refine ⟨k, hk, hk3, fun i v h0 hl hv => ?_⟩
      rw [show value (.mulB b n) i
        = (if length b ≤ 0 then none else value b (i.tmod (length b))) from rfl] at hv
      by_cases hc : length b ≤ 0
      · rw [if_pos hc] at hv; exact absurd hv (by simp)
      · rw [if_neg hc] at hv
        exact hbd _ v (Int.tmod_nonneg _ h0) (Int.tmod_lt_of_pos i (by omega)) hv
  | slice1 b sI eI ih =>
      intro hw
      obtain ⟨ok, hok, hok3, hobd⟩ := ih hw.1
      obtain ⟨k, hk, hk3, hbd, _⟩ := slice1_kind_full b sI eI hw ok hok hok3 hobd
      exact ⟨k, hk, hk3, hbd⟩
  | sliceN b sI eI st ih =>
      intro hw
      obtain ⟨ok, hok, hok3, hobd⟩ := ih hw.1
      obtain ⟨k, hk, hk3, hbd, _⟩ := sliceN_kind_full b sI eI st hw ok hok hok3 hobd
      exact ⟨k, hk, hk3, hbd⟩

/-- C8 counterexample: a repeat node with count 0 over a 4-byte base reports
kind 4 although no value is reachable, so width 1 suffices — `unicode_kind`
is not the minimal sufficient width for every node. -/
theorem C8_unicode_kind_counterexample :
    unicodeKind (.mulB (.str [70000]) 0) = some 4 ∧
    minimalKind (.mulB (.str [70000]) 0) = 1 ∧
    unicodeKind (.mulB (.str [70000]) 0)
      ≠ some (minimalKind (.mulB (.str [70000]) 0)) := by
  refine ⟨rfl, by decide, by decide⟩

/-- C8 as amended: `unicode_kind` is computed structurally — a join reports
the max of its children's kinds and a repeat node reports its base's kind
(even with repeat count 0); the reported kind is always in {1,2,4} and is an
upper bound for every reachable value; only the slice nodes rescan their
contents and report the minimal sufficient width. -/
theorem C8_unicode_kind_corrected (b l r A B : Buf) (n s e sN eN stN : Int) :
    unicodeKind (.joinB l r) =
      (do
        let kl ← unicodeKind l
        let kr ← unicodeKind r
        pure (max kl kr)) ∧
    unicodeKind (.mulB A n) = unicodeKind A ∧
    (WF b → ∃ k, unicodeKind b = some k ∧ (k = 1 ∨ k = 2 ∨ k = 4) ∧
      ∀ i v, 0 ≤ i → i < length b → value b i = some v → v < kindBound k) ∧
    (WF (.slice1 B s e) →
      unicodeKind (.slice1 B s e) = some (minimalKind (.slice1 B s e))) ∧
    (WF (.sliceN B sN eN stN) →
      unicodeKind (.sliceN B sN eN stN) = some (minimalKind (.sliceN B sN eN stN))) := by
  refine ⟨rfl, rfl, unicodeKind_spec b, ?_, ?_⟩
  · intro hw
    obtain ⟨ok, hok, hok3, hobd⟩ := unicodeKind_spec B hw.1
    obtain ⟨k, hk, _, _, hmin⟩ := slice1_kind_full B s e hw ok hok hok3 hobd
    rw [hk, hmin]
  · intro hw
    obtain ⟨ok, hok, hok3, hobd⟩ := unicodeKind_spec B hw.1
    obtain ⟨k, hk, _, _, hmin⟩ := sliceN_kind_full B sN eN stN hw ok hok hok3 hobd
    rw [hk, hmin]

/-- Witness for the amended C8: a slice of a 2-byte leaf that narrows to
1 byte, and a repeat with count 0 delegating to its base. -/
theorem C8_unicode_kind_corrected_witness :
    unicodeKind (.slice1 (.str [97, 300]) 0 1)
      = some (minimalKind (.slice1 (.str [97, 300]) 0 1)) ∧
    unicodeKind (.mulB (.str [97, 300]) 0) = unicodeKind (.str [97, 300]) :=
  ⟨(C8_unicode_kind_corrected (.str []) (.str []) (.str []) (.str [])
      (.str [97, 300]) 0 0 1 0 0 1).2.2.2.1
      ⟨by simp [WF], fun _ => ⟨by decide, by decide⟩⟩,
   (C8_unicode_kind_corrected (.str []) (.str []) (.str []) (.str [97, 300])
      (.str []) 0 0 1 0 0 1).2.1⟩

/-! ### Copy correctness (for C6) -/

theorem writeLoop_spec (f : Int → Option Nat) (g : Int → Nat) :
    ∀ (n : Nat) (tgt : List Nat) (off i0 : Int),
    0 ≤ off → 0 ≤ i0 →
    (∀ i : Int, i0 ≤ i → i < i0 + n → f i = some (g i)) →
    ∃ out, writeLoop f tgt off i0 n = some out ∧
      out.length = tgt.length ∧
      (∀ j : Nat, ((j : Int) < off + i0 ∨ off + i0 + n ≤ (j : Int)) →
        out.get? j = tgt.get? j) ∧
      (∀ i : Int, i0 ≤ i → i < i0 + n → off + i < tgt.length →
        out.get? (off + i).toNat = some (g i)) := by
  intro n
  induction n with
  | zero =>
      intro tgt off i0 hoff hi0 hf
      exact ⟨tgt, rfl, rfl, fun j _ => rfl, fun i h1 h2 _ => absurd h2 (by push_cast; omega)⟩
  | succ n ih =>
      intro tgt off i0 hoff hi0 hf
      have hf0 := hf i0 (le_refl i0) (by push_cast; omega)
      have hstep : writeLoop f tgt off i0 (n+1)
          = writeLoop f (tgt.set (off + i0).toNat (g i0)) off (i0+1) n := by
        simp only [writeLoop, hf0, Option.bind_eq_bind, Option.some_bind]
      obtain ⟨out, ho, hlen, huntouched, hwritten⟩ :=
        ih (tgt.set (off + i0).toNat (g i0)) off (i0+1) hoff (by omega)
          (fun i h1 h2 => hf i (by omega) (by push_cast at h2 ⊢; omega))
      refine ⟨out, by rw [hstep, ho], by rw [hlen, List.length_set], ?_, ?_⟩
      · intro j hj
        have hne : (off + i0).toNat ≠ j := by
          rcases hj with hj | hj <;> push_cast at hj <;> omega
        have hj2 : (j : Int) < off + (i0 + 1) ∨ off + (i0 + 1) + n ≤ (j : Int) := by
          rcases hj with hj | hj
          · left; omega
          · right; push_cast at hj ⊢; omega
        rw [huntouched j hj2, List.get?_set_ne _ _ hne]
      · intro i h1 h2 hlt
        by_cases hii : i = i0
        · subst hii
          rw [huntouched (off + i).toNat (by left; omega)]
          rw [List.get?_set_eq_of_lt]
          omega
        · have := hwritten i (by omega) (by push_cast at h2 ⊢; omega)
            (by rw [List.length_set]; exact hlt)
          exact this

theorem copyBuf_zero : ∀ (b : Buf) (w : Int) (tgt : List Nat) (off start : Int),
    copyBuf w b tgt off start 0 = some tgt := by
  intro b
  induction b with
  | str d => intro w tgt off start; rfl
  | joinB l r ihl ihr =>
      intro w tgt off start
      show (if start < length l then _ else _) = some tgt
      by_cases hc : start < length l
      · rw [if_pos hc]
        have hmin : min (0:Int) (length l - start) = 0 := by omega
        simp only [hmin, ihl]
        simp
      · rw [if_neg hc]
        exact ihr w tgt off (start - length l)
  | mulB b n ih =>
      intro w tgt off start
      show (if length b ≤ 0 then some tgt else _) = some tgt
      by_cases hc : length b ≤ 0
      · rw [if_pos hc]
      · rw [if_neg hc]; rfl
  | slice1 b sI eI ih => intro w tgt off start; exact ih w tgt off (sI + start)
  | sliceN b sI eI st ih => intro w tgt off start; rfl

/-- `Buffer::copy` correctness: the copy succeeds, leaves the destination
outside `[off, off+count)` unchanged, and writes `castW w (value b (start+i))`
at `off + i`. -/
theorem copyBuf_spec : ∀ (b : Buf) (w : Int), WF b →
    ∀ (tgt : List Nat) (off start count : Int),
    0 ≤ off → 0 ≤ start → 0 ≤ count → start + count ≤ length b →
    off + count ≤ tgt.length →
    ∃ out, copyBuf w b tgt off start count = some out ∧
      out.length = tgt.length ∧
      (∀ j : Nat, ((j : Int) < off ∨ off + count ≤ (j : Int)) → out.get? j = tgt.get? j) ∧
      (∀ i : Int, 0 ≤ i → i < count →
        ∃ v, value b (start + i) = some v ∧
          out.get? (off + i).toNat = some (castW w v)) := by
  intro b
  induction b with
  | str d =>
      intro w hw tgt off start count hoff hstart hcount hlen htgt
      have hlstr : length (.str d) = (d.length : Int) := rfl
      rw [hlstr] at hlen
      have hf : ∀ i : Int, 0 ≤ i → i < 0 + (count.toNat : Int) →
          ((castW w) <$> (if start + i < 0 then none else d.get? (start+i).toNat))
            = some (castW w ((d.get? (start+i).toNat).getD 0)) := by
        intro i h1 h2
        rw [if_neg (by omega)]
        cases hg : d.get? (start+i).toNat with
        | none =>
            have := List.get?_eq_none.mp hg
            exfalso; omega
        | some v => simp [hg]
      obtain ⟨out, ho, hlen2, hunt, hwr⟩ :=
        writeLoop_spec _ _ count.toNat tgt off 0 hoff le_rfl hf
      refine ⟨out, ho, hlen2, ?_, ?_⟩
      · intro j hj
        apply hunt j
        rcases hj with hj | hj
        · left; omega
        · right; push_cast; omega
      · intro i h1 h2
        have hvd : value (.str d) (start + i) = d.get? (start + i).toNat := by
          show (if start + i < 0 ∨ (d.length : Int) ≤ start + i then none else _) = _
          rw [if_neg (by omega)]
        cases hg : d.get? (start + i).toNat with
        | none =>
            have := List.get?_eq_none.mp hg
            exfalso; omega
        | some v =>
            refine ⟨v, by rw [hvd, hg], ?_⟩
            have hx := hwr i h1 (by push_cast; omega) (by omega)
            rw [hg] at hx
            simpa using hx
  | joinB l r ihl ihr =>
      intro w hw tgt off start count hoff hstart hcount hlen htgt
      obtain ⟨hwl, hwr2⟩ := hw
      have hll : 0 ≤ length l := length_nonneg l hwl
      have hrr : 0 ≤ length r := length_nonneg r hwr2
      have hjl : length (.joinB l r) = length l + length r := rfl
      rw [hjl] at hlen
      by_cases hc : start < length l
      · have heq : copyBuf w (.joinB l r) tgt off start count =
            (do
              let t1 ← copyBuf w l tgt off start (min count (length l - start))
              if min count (length l - start) < count then
                copyBuf w r t1 (off + min count (length l - start)) 0
                  (count - min count (length l - start))
              else pure t1) := by
          show (if start < length l then _ else _) = _
          rw [if_pos hc]
        obtain ⟨t1, ht1, hlen1, hunt1, hwr1⟩ :=
          ihl w hwl tgt off start (min count (length l - start)) hoff hstart
            (by omega) (by omega) (by omega)
        by_cases hc2 : min count (length l - start) < count
        · have hLC : min count (length l - start) = length l - start := by omega
          obtain ⟨out, ho, hlen3, hunt3, hwr3⟩ :=
            ihr w hwr2 t1 (off + min count (length l - start)) 0
              (count - min count (length l - start)) (by omega) le_rfl (by omega)
              (by omega) (by rw [hlen1]; omega)
          refine ⟨out, ?_, by rw [hlen3, hlen1], ?_, ?_⟩
          · rw [heq, ht1]
            simp only [Option.bind_eq_bind, Option.some_bind]
            rw [if_pos hc2]
            exact ho
          · intro j hj
            rw [hunt3 j (hj.elim (fun hj => Or.inl (by omega)) (fun hj => Or.inr (by omega))),
              hunt1 j (hj.elim (fun hj => Or.inl (by omega)) (fun hj => Or.inr (by omega)))]
          · intro i h1 h2
            by_cases hi : i < min count (length l - start)
            · obtain ⟨v, hv, hw1⟩ := hwr1 i h1 hi
              refine ⟨v, ?_, ?_⟩
              · show (if start + i < length l then value l (start + i)
                  else value r (start + i - length l)) = some v
                rw [if_pos (by omega)]
                exact hv
              · rw [hunt3 (off + i).toNat (by left; push_cast; omega)]
                exact hw1
            · obtain ⟨v, hv, hw3⟩ := hwr3 (i - min count (length l - start))
                (by omega) (by omega)
              refine ⟨v, ?_, ?_⟩
              · show (if start + i < length l then value l (start + i)
                  else value r (start + i - length l)) = some v
                rw [if_neg (by omega)]
                rw [show start + i - length l = 0 + (i - min count (length l - start)) by omega]
                exact hv
              · rw [show off + i = off + min count (length l - start)
                  + (i - min count (length l - start)) by omega] at *
                exact hw3
        · have hLC : min count (length l - start) = count := by omega
          refine ⟨t1, ?_, hlen1, ?_, ?_⟩
          · rw [heq, ht1]
            simp only [Option.bind_eq_bind, Option.some_bind]
            rw [if_neg hc2]
            rfl
          · intro j hj
            exact hunt1 j (hj.elim (fun hj => Or.inl (by omega)) (fun hj => Or.inr (by omega)))
          · intro i h1 h2
            obtain ⟨v, hv, hw1⟩ := hwr1 i h1 (by omega)
            refine ⟨v, ?_, hw1⟩
            show (if start + i < length l then value l (start + i)
              else value r (start + i - length l)) = some v
            rw [if_pos (by omega)]
            exact hv
      · have heq : copyBuf w (.joinB l r) tgt off start count =
            copyBuf w r tgt off (start - length l) count := by
          show (if start < length l then _ else _) = _
          rw [if_neg hc]
        obtain ⟨out, ho, hlen3, hunt3, hwr3⟩ :=
          ihr w hwr2 tgt off (start - length l) count hoff (by omega) hcount
            (by omega) htgt
        refine ⟨out, by rw [heq]; exact ho, hlen3, hunt3, ?_⟩
        intro i h1 h2
        obtain ⟨v, hv, hw3⟩ := hwr3 i h1 h2
        refine ⟨v, ?_, hw3⟩
        show (if start + i < length l then value l (start + i)
          else value r (start + i - length l)) = some v
        rw [if_neg (by omega)]
        rw [show start + i - length l = start - length l + i by omega]
        exact hv
  | mulB b n ih =>
      intro w hw tgt off start count hoff hstart hcount hlen htgt
      obtain ⟨hwb, hn⟩ := hw
      have hL : 0 ≤ length b := length_nonneg b hwb
      have hml : length (.mulB b n) = length b * n := rfl
      rw [hml] at hlen
      by_cases hc : length b ≤ 0
      · have hc0 : count = 0 := by
          have hmn : length b * n ≤ 0 := mul_nonpos_iff.mpr (Or.inr ⟨hc, hn⟩)
          omega
        subst hc0
        refine ⟨tgt, ?_, rfl, fun j _ => rfl, fun i h1 h2 => absurd h2 (by omega)⟩
        show (if length b ≤ 0 then some tgt else _) = some tgt
        rw [if_pos hc]
      · have hLpos : 0 < length b := by omega
        have hf : ∀ i : Int, 0 ≤ i → i < 0 + (count.toNat : Int) →
            ((castW w) <$> value b ((start + i).tmod (length b)))
              = some (castW w ((value b ((start + i).tmod (length b))).getD 0)) := by
          intro i h1 h2
          obtain ⟨v, hv⟩ := value_isSome b hwb ((start + i).tmod (length b))
            (Int.tmod_nonneg _ (by omega)) (Int.tmod_lt_of_pos _ hLpos)
          simp [hv]
        obtain ⟨out, ho, hlen2, hunt, hwr⟩ :=
          writeLoop_spec _ _ count.toNat tgt off 0 hoff le_rfl hf
        refine ⟨out, ?_, hlen2, ?_, ?_⟩
        · show (if length b ≤ 0 then some tgt else _) = some out
          rw [if_neg hc]
          exact ho
        · intro j hj
          apply hunt j
          rcases hj with hj | hj
          · left; omega
          · right; push_cast; omega
        · intro i h1 h2
          obtain ⟨v, hv⟩ := value_isSome b hwb ((start + i).tmod (length b))
            (Int.tmod_nonneg _ (by omega)) (Int.tmod_lt_of_pos _ hLpos)
          refine ⟨v, ?_, ?_⟩
          · show (if length b ≤ 0 then none else value b ((start + i).tmod (length b)))
              = some v
            rw [if_neg hc]
            exact hv
          · have hx := hwr i h1 (by push_cast; omega) (by omega)
            rw [hv] at hx
            simpa using hx
  | slice1 b sI eI ih =>
      intro w hw tgt off start count hoff hstart hcount hlen htgt
      obtain ⟨hwb, hbnd⟩ := hw
      by_cases hc0 : count = 0
      · subst hc0
        refine ⟨tgt, copyBuf_zero _ _ _ _ _, rfl, fun j _ => rfl,
          fun i h1 h2 => absurd h2 (by omega)⟩
      · have hpos : 0 < length (.slice1 b sI eI) := by omega
        have hse : sI < eI := by
          by_contra hcc
          have hz : length (.slice1 b sI eI) = 0 := by
            show (if eI > sI then eI - sI else 0) = 0
            rw [if_neg (by omega)]
          omega
        obtain ⟨hs0, heb⟩ := hbnd hse
        have hlen1 : length (.slice1 b sI eI) = eI - sI := by
          show (if eI > sI then eI - sI else 0) = eI - sI
          rw [if_pos hse]
        rw [hlen1] at hlen
        obtain ⟨out, ho, hlen2, hunt, hwr⟩ :=
          ih w hwb tgt off (sI + start) count (by omega) (by omega) hcount
            (by omega) htgt
        refine ⟨out, ho, hlen2, hunt, ?_⟩
        intro i h1 h2
        obtain ⟨v, hv, hwx⟩ := hwr i h1 h2
        refine ⟨v, ?_, hwx⟩
        show value b (sI + (start + i)) = some v
        rw [show sI + (start + i) = sI + start + i by ring]
        exact hv
  | sliceN b sI eI st ih =>
      intro w hw tgt off start count hoff hstart hcount hlen htgt
      obtain ⟨hwb, hst, hbnd⟩ := hw
      have hf : ∀ i : Int, 0 ≤ i → i < 0 + (count.toNat : Int) →
          ((castW w) <$> value b (sI + (start + i) * st))
            = some (castW w ((value b (sI + (start + i) * st)).getD 0)) := by
        intro i h1 h2
        obtain ⟨hlo, hhi⟩ := hbnd (start + i) (by omega) (by omega)
        obtain ⟨v, hv⟩ := value_isSome b hwb _ hlo hhi
        simp [hv]
      obtain ⟨out, ho, hlen2, hunt, hwr⟩ :=
        writeLoop_spec _ _ count.toNat tgt off 0 hoff le_rfl hf
      refine ⟨out, ho, hlen2, ?_, ?_⟩
      · intro j hj
        apply hunt j
        rcases hj with hj | hj
        · left; omega
        · right; push_cast; omega
      · intro i h1 h2
        obtain ⟨hlo, hhi⟩ := hbnd (start + i) (by omega) (by omega)
        obtain ⟨v, hv⟩ := value_isSome b hwb _ hlo hhi
        refine ⟨v, hv, ?_⟩
        have hx := hwr i h1 (by push_cast; omega) (by omega)
        rw [hv] at hx
        simpa using hx

/-- `JoinBuffer::collapse` materializes the join into a leaf of the same
length with element-wise equal contents. -/
theorem collapse_join_spec (l r : Buf) (hw : WF (.joinB l r)) :
    ∃ d, collapseBuf (.joinB l r) = some (.str d) ∧
      length (.str d) = length (.joinB l r) ∧
      (∀ i : Int, 0 ≤ i → i < length (.joinB l r) →
        value (.str d) i = value (.joinB l r) i) := by
  obtain ⟨k, hk, hk3, hbound⟩ := unicodeKind_spec (.joinB l r) hw
  have hlen0 : 0 ≤ length (.joinB l r) := length_nonneg _ hw
  obtain ⟨out, ho, hlen2, hunt, hwrit⟩ :=
    copyBuf_spec (.joinB l r) k hw
      (List.replicate (length (.joinB l r)).toNat 0) 0 0 (length (.joinB l r))
      le_rfl le_rfl hlen0 (by omega) (by rw [List.length_replicate]; omega)
  have houtlen : (out.length : Int) = length (.joinB l r) := by
    rw [hlen2, List.length_replicate]
    omega
  refine ⟨out, ?_, houtlen, ?_⟩
  · show (do
      let k ← unicodeKind (.joinB l r)
      if k = 1 ∨ k = 2 ∨ k = 4 then do
        let len := length (.joinB l r)
        let out ← copyBuf k (.joinB l r) (List.replicate len.toNat 0) 0 0 len
        pure (Buf.str out)
      else none) = some (.str out)
    rw [hk]
    simp only [Option.bind_eq_bind, Option.some_bind]
    rw [if_pos hk3, ho]
    rfl
  · intro i h0 hi
    obtain ⟨v, hv, hgot⟩ := hwrit i h0 (by omega)
    rw [show (0:Int) + i = i by ring] at hv hgot
    have hvb := hbound i v h0 hi hv
    have hcast : castW k v = v := by
      unfold castW
      exact Nat.mod_eq_of_lt hvb
    show (if i < 0 ∨ (out.length : Int) ≤ i then none else out.get? i.toNat)
      = value (.joinB l r) i
    rw [if_neg (by omega), hgot, hcast, hv]

/-- C6 counterexample: a repeat node below the active threshold is NOT
collapsed — its `optimize()` returns null because `Buffer::collapse` is a
no-op for every node type except `JoinBuffer`. -/
theorem C6_optimize_counterexample :
    ((0:Int) < 5 ∧ length (.mulB (.str [97]) 2) < 5) ∧
    optimizeRet 5 (.mulB (.str [97]) 2) = none := by
  refine ⟨⟨by norm_num, by decide⟩, by decide⟩

/-- C6 as amended: with threshold `T <= 0` optimize returns null for every
node;  only a Join node below an active threshold is replaced, by a
collapsed flat leaf element-wise equal to it;  every non-Join node's
optimize returns null;  a Join node at or above the threshold returns null
for itself while `lstr_optimize` recurses into both children. -/
theorem C6_optimize_corrected (T : Int) (b l r : Buf) :
    (T ≤ 0 → optimizeRet T b = none) ∧
    ((∀ x y, b ≠ .joinB x y) → optimizeRet T b = none) ∧
    (0 < T → length (.joinB l r) < T → WF (.joinB l r) →
      ∃ d, optimizeRet T (.joinB l r) = some (.str d) ∧
        length (.str d) = length (.joinB l r) ∧
        (∀ i : Int, 0 ≤ i → i < length (.joinB l r) →
          value (.str d) i = value (.joinB l r) i)) ∧
    (0 < T → T ≤ length (.joinB l r) →
      optimizeRet T (.joinB l r) = none ∧
      lstrOptimizeB T (.joinB l r) = .joinB (lstrOptimizeB T l) (lstrOptimizeB T r)) := by
  refine ⟨?_, ?_, ?_, ?_⟩
  · intro hT
    unfold optimizeRet
    rw [if_pos hT]
  · intro hnj
    unfold optimizeRet
    by_cases hT : T ≤ 0
    · rw [if_pos hT]
    · rw [if_neg hT]
      by_cases hl : length b < T
      · rw [if_pos hl]
        cases b with
        | joinB x y => exact absurd rfl (hnj x y)
        | str d => rfl
        | mulB b' n => rfl
        | slice1 b' sI eI => rfl
        | sliceN b' sI eI st => rfl
      · rw [if_neg hl]
  · intro hT hlen hw
    obtain ⟨d, hcol, hdlen, hdval⟩ := collapse_join_spec l r hw
    refine ⟨d, ?_, hdlen, hdval⟩
    unfold optimizeRet
    rw [if_neg (by omega), if_pos hlen]
    exact hcol
  · intro hT hge
    have hnone : optimizeRet T (.joinB l r) = none := by
      unfold optimizeRet
      rw [if_neg (by omega), if_neg (by omega)]
    refine ⟨hnone, ?_⟩
    show (match optimizeRet T (.joinB l r) with
      | some nb => nb
      | none => .joinB (lstrOptimizeB T l) (lstrOptimizeB T r)) = _
    rw [hnone]

/-- Witness for the amended C6: threshold 5 collapses `join("ab","cd")`. -/
theorem C6_optimize_corrected_witness :
    ∃ d, optimizeRet 5 (.joinB (.str [97,98]) (.str [99,100])) = some (.str d) ∧
      length (.str d) = length (.joinB (.str [97,98]) (.str [99,100])) ∧
      (∀ i : Int, 0 ≤ i → i < length (.joinB (.str [97,98]) (.str [99,100])) →
        value (.str d) i = value (.joinB (.str [97,98]) (.str [99,100])) i) :=
  (C6_optimize_corrected 5 (.str []) (.str [97,98]) (.str [99,100])).2.2.1
    (by norm_num) (by decide) ⟨by simp [WF], by simp [WF]⟩

/-! ### Search correctness (C5) -/

theorem FirstIn_unique (p : Int → Prop) (lo hi r1 r2 : Int)
    (h1 : FirstIn p lo hi r1) (h2 : FirstIn p lo hi r2) : r1 = r2 := by
  rcases h1 with ⟨he1, hn1⟩ | ⟨ha1, hb1, hp1, hm1⟩
  · rcases h2 with ⟨he2, _⟩ | ⟨ha2, hb2, hp2, _⟩
    · omega
    · exact absurd hp2 (hn1 r2 ha2 hb2)
  · rcases h2 with ⟨he2, hn2⟩ | ⟨ha2, hb2, hp2, hm2⟩
    · exact absurd hp1 (hn2 r1 ha1 hb1)
    · have := hm1 r2 ha2 hb2 hp2
      have := hm2 r1 ha1 hb1 hp1
      omega

theorem LastIn_unique (p : Int → Prop) (lo hi r1 r2 : Int)
    (h1 : LastIn p lo hi r1) (h2 : LastIn p lo hi r2) : r1 = r2 := by
  rcases h1 with ⟨he1, hn1⟩ | ⟨ha1, hb1, hp1, hm1⟩
  · rcases h2 with ⟨he2, _⟩ | ⟨ha2, hb2, hp2, _⟩
    · omega
    · exact absurd hp2 (hn1 r2 ha2 hb2)
  · rcases h2 with ⟨he2, hn2⟩ | ⟨ha2, hb2, hp2, hm2⟩
    · exact absurd hp1 (hn2 r1 ha1 hb1)
    · have := hm1 r2 ha2 hb2 hp2
      have := hm2 r1 ha1 hb1 hp1
      omega

theorem scanFirst_spec (b : Buf) (ch : Nat) : ∀ (fu : Nat) (i : Int),
    FirstIn (fun j => value b j = some ch) i (i + fu) (scanFirst b ch i fu) := by
  intro fu
  induction fu with
  | zero =>
      intro i
      exact Or.inl ⟨rfl, fun j h1 h2 => absurd h2 (by push_cast; omega)⟩
  | succ fu ih =>
      intro i
      show FirstIn _ i (i + ↑(fu+1))
        (if value b i = some ch then i else scanFirst b ch (i+1) fu)
      by_cases hv : value b i = some ch
      · rw [if_pos hv]
        exact Or.inr ⟨le_refl i, by push_cast; omega, hv, fun j h1 h2 _ => h1⟩
      · rw [if_neg hv]
        rcases ih (i+1) with ⟨he, hn⟩ | ⟨ha, hb2, hp, hm⟩
        · refine Or.inl ⟨he, fun j h1 h2 hp => ?_⟩
          by_cases hji : j = i
          · rw [hji] at hp; exact hv hp
          · exact hn j (by omega) (by push_cast at h2 ⊢; omega) hp
        · refine Or.inr ⟨by omega, by push_cast at hb2 ⊢; omega, hp, fun j h1 h2 hpj => ?_⟩
          by_cases hji : j = i
          · rw [hji] at hpj; exact absurd hpj hv
          · exact hm j (by omega) (by push_cast at h2 ⊢; omega) hpj

theorem scanLast_spec (b : Buf) (ch : Nat) : ∀ (fu : Nat) (e : Int),
    LastIn (fun j => value b j = some ch) (e - fu) e (scanLast b ch e fu) := by
  intro fu
  induction fu with
  | zero =>
      intro e
      exact Or.inl ⟨rfl, fun j h1 h2 => absurd h1 (by push_cast; omega)⟩
  | succ fu ih =>
      intro e
      show LastIn _ (e - ↑(fu+1)) e
        (if value b (e-1) = some ch then e - 1 else scanLast b ch (e-1) fu)
      by_cases hv : value b (e-1) = some ch
      · rw [if_pos hv]
        exact Or.inr ⟨by push_cast; omega, by omega, hv, fun j h1 h2 _ => by omega⟩
      · rw [if_neg hv]
        rcases ih (e-1) with ⟨he, hn⟩ | ⟨ha, hb2, hp, hm⟩
        · refine Or.inl ⟨he, fun j h1 h2 hp => ?_⟩
          by_cases hje : j = e - 1
          · rw [hje] at hp; exact hv hp
          · exact hn j (by push_cast at h1 ⊢; omega) (by omega) hp
        · refine Or.inr ⟨by push_cast at ha ⊢; omega, by omega, hp,
            fun j h1 h2 hpj => ?_⟩
          by_cases hje : j = e - 1
          · rw [hje] at hpj; exact absurd hpj hv
          · exact hm j (by push_cast at h1 ⊢; omega) (by omega) hpj

theorem specFindc_first (b : Buf) (s e : Int) (ch : Nat) :
    FirstIn (fun j => value b j = some ch) (max s 0) (min e (length b))
      (specFindc b s e ch) := by
  unfold specFindc
  by_cases hc : max s 0 < min e (length b)
  · rw [if_pos hc]
    have := scanFirst_spec b ch (min e (length b) - max s 0).toNat (max s 0)
    rwa [show max s 0 + ((min e (length b) - max s 0).toNat : Int)
      = min e (length b) by omega] at this
  · rw [if_neg hc]
    exact Or.inl ⟨rfl, fun j h1 h2 => absurd h1 (by omega)⟩

theorem specRFindc_last (b : Buf) (s e : Int) (ch : Nat) :
    LastIn (fun j => value b j = some ch) (max s 0) (min e (length b))
      (specRFindc b s e ch) := by
  unfold specRFindc
  by_cases hc : max s 0 < min e (length b)
  · rw [if_pos hc]
    have := scanLast_spec b ch (min e (length b) - max s 0).toNat (min e (length b))
    rwa [show min e (length b) - ((min e (length b) - max s 0).toNat : Int)
      = max s 0 by omega] at this
  · rw [if_neg hc]
    exact Or.inl ⟨rfl, fun j h1 h2 => absurd h1 (by omega)⟩

theorem strP_iff (d : List Nat) (ch : Nat) (i : Int) (hi : 0 ≤ i) :
    (d.get? i.toNat = some ch) ↔ (value (.str d) i = some ch) := by
  show _ ↔ ((if i < 0 ∨ (d.length : Int) ≤ i then none else d.get? i.toNat) = some ch)
  by_cases hc : (d.length : Int) ≤ i
  · rw [if_pos (Or.inr hc), List.get?_eq_none.mpr (by omega)]
  · rw [if_neg (by omega)]

theorem strScanF_first (d : List Nat) (ch : Nat) : ∀ (fu : Nat) (i : Int), 0 ≤ i →
    FirstIn (fun j => value (.str d) j = some ch) i (i + fu) (strScanF d ch i fu) := by
  intro fu
  induction fu with
  | zero =>
      intro i _
      exact Or.inl ⟨rfl, fun j h1 h2 => absurd h2 (by push_cast; omega)⟩
  | succ fu ih =>
      intro i hi
      show FirstIn _ i (i + ↑(fu+1))
        (if d.get? i.toNat = some ch then i else strScanF d ch (i+1) fu)
      by_cases hv : d.get? i.toNat = some ch
      · rw [if_pos hv]
        exact Or.inr ⟨le_refl i, by push_cast; omega, (strP_iff d ch i hi).mp hv,
          fun j h1 h2 _ => h1⟩
      · rw [if_neg hv]
        have hnp : ¬ (value (.str d) i = some ch) := fun hp => hv ((strP_iff d ch i hi).mpr hp)
        rcases ih (i+1) (by omega) with ⟨he, hn⟩ | ⟨ha, hb2, hp, hm⟩
        · refine Or.inl ⟨he, fun j h1 h2 hp => ?_⟩
          by_cases hji : j = i
          · rw [hji] at hp; exact hnp hp
          · exact hn j (by omega) (by push_cast at h2 ⊢; omega) hp
        · refine Or.inr ⟨by omega, by push_cast at hb2 ⊢; omega, hp, fun j h1 h2 hpj => ?_⟩
          by_cases hji : j = i
          · rw [hji] at hpj; exact absurd hpj hnp
          · exact hm j (by omega) (by push_cast at h2 ⊢; omega) hpj

theorem strScanR_last (d : List Nat) (ch : Nat) : ∀ (fu : Nat) (e : Int), 0 ≤ e - fu →
    LastIn (fun j => value (.str d) j = some ch) (e - fu) e (strScanR d ch e fu) := by
  intro fu
  induction fu with
  | zero =>
      intro e _
      exact Or.inl ⟨rfl, fun j h1 h2 => absurd h1 (by push_cast; omega)⟩
  | succ fu ih =>
      intro e hfu
      have he1 : 0 ≤ e - 1 := by push_cast at hfu; omega
      show LastIn _ (e - ↑(fu+1)) e
        (if d.get? (e-1).toNat = some ch then e - 1 else strScanR d ch (e-1) fu)
      by_cases hv : d.get? (e-1).toNat = some ch
      · rw [if_pos hv]
        exact Or.inr ⟨by push_cast; omega, by omega, (strP_iff d ch (e-1) he1).mp hv,
          fun j h1 h2 _ => by omega⟩
      · rw [if_neg hv]
        have hnp : ¬ (value (.str d) (e-1) = some ch) :=
          fun hp => hv ((strP_iff d ch (e-1) he1).mpr hp)
        rcases ih (e-1) (by push_cast at hfu ⊢; omega) with ⟨he, hn⟩ | ⟨ha, hb2, hp, hm⟩
        · refine Or.inl ⟨he, fun j h1 h2 hp => ?_⟩
          by_cases hje : j = e - 1
          · rw [hje] at hp; exact hnp hp
          · exact hn j (by push_cast at h1 ⊢; omega) (by omega) hp
        · refine Or.inr ⟨by push_cast at ha ⊢; omega, by omega, hp,
            fun j h1 h2 hpj => ?_⟩
          by_cases hje : j = e - 1
          · rw [hje] at hpj; exact absurd hpj hnp
          · exact hm j (by push_cast at h1 ⊢; omega) (by omega) hpj

theorem strAdjustEnd_eq (len e : Int) (h0 : 0 ≤ e) : strAdjustEnd len e = min e len := by
  unfold strAdjustEnd
  by_cases h1 : e > len
  · rw [if_pos h1]; omega
  · rw [if_neg h1, if_neg (by omega)]; omega

theorem strAdjustStart_eq (len s : Int) (h0 : 0 ≤ s) : strAdjustStart len s = s := by
  unfold strAdjustStart
  rw [if_neg (by omega)]

theorem strFindc_first (d : List Nat) (s e : Int) (ch : Nat) (hs : 0 ≤ s) (he : 0 ≤ e) :
    FirstIn (fun j => value (.str d) j = some ch) s (min e (length (.str d)))
      (strFindc d s e ch) := by
  have hlen : length (.str d) = (d.length : Int) := rfl
  rw [hlen]
  simp only [strFindc]
  rw [strAdjustEnd_eq _ _ he, strAdjustStart_eq _ _ hs]
  by_cases hlt : s < min e (d.length : Int)
  · have := strScanF_first d ch (min e (d.length : Int) - s).toNat s hs
    rwa [show s + ((min e (d.length : Int) - s).toNat : Int)
      = min e (d.length : Int) by omega] at this
  · have hfu : (min e (d.length : Int) - s).toNat = 0 := by omega
    rw [hfu]
    exact Or.inl ⟨rfl, fun j h1 h2 => absurd h1 (by omega)⟩

theorem strRFindc_last (d : List Nat) (s e : Int) (ch : Nat) (hs : 0 ≤ s) (he : 0 ≤ e) :
    LastIn (fun j => value (.str d) j = some ch) s (min e (length (.str d)))
      (strRFindc d s e ch) := by
  have hlen : length (.str d) = (d.length : Int) := rfl
  rw [hlen]
  simp only [strRFindc]
  rw [strAdjustEnd_eq _ _ he, strAdjustStart_eq _ _ hs]
  by_cases hlt : s < min e (d.length : Int)
  · have := strScanR_last d ch (min e (d.length : Int) - s).toNat (min e (d.length : Int))
      (by push_cast; omega)
    rwa [show min e (d.length : Int) - ((min e (d.length : Int) - s).toNat : Int)
      = s by omega] at this
  · have hfu : (min e (d.length : Int) - s).toNat = 0 := by omega
    rw [hfu]
    exact Or.inl ⟨rfl, fun j h1 h2 => absurd h1 (by omega)⟩

theorem sliceScanF_spec (b : Buf) (sIdx st : Int) (ch : Nat) : ∀ (fu : Nat) (i : Int),
    (∀ j : Int, i ≤ j → j < i + fu → (value b (sIdx + j * st)).isSome) →
    ∃ r, sliceScanF b sIdx st ch i fu = some r ∧
      FirstIn (fun j => value b (sIdx + j * st) = some ch) i (i + fu) r := by
  intro fu
  induction fu with
  | zero =>
      intro i _
      exact ⟨-1, rfl, Or.inl ⟨rfl, fun j h1 h2 => absurd h2 (by push_cast; omega)⟩⟩
  | succ fu ih =>
      intro i hdef
      have hi := hdef i (le_refl i) (by push_cast; omega)
      cases hv : value b (sIdx + i * st) with
      | none => rw [hv] at hi; simp at hi
      | some v =>
          have hstep : sliceScanF b sIdx st ch i (fu+1)
              = if v = ch then some i else sliceScanF b sIdx st ch (i+1) fu := by
            simp only [sliceScanF, hv, Option.bind_eq_bind, Option.some_bind]
            split <;> rfl
          by_cases hvc : v = ch
          · rw [hstep, if_pos hvc]
            refine ⟨i, rfl, Or.inr ⟨le_refl i, by push_cast; omega, ?_, fun j h1 _ _ => h1⟩⟩
            show value b (sIdx + i * st) = some ch
            rw [hv, hvc]
          · rw [hstep, if_neg hvc]
            have hnp : ¬ (value b (sIdx + i * st) = some ch) := by
              rw [hv]
              intro hx
              exact hvc (Option.some.inj hx)
            obtain ⟨r, hr, hfi⟩ := ih (i+1)
              (fun j h1 h2 => hdef j (by omega) (by push_cast at h2 ⊢; omega))
            refine ⟨r, hr, ?_⟩
            rcases hfi with ⟨he, hn⟩ | ⟨ha, hb2, hp, hm⟩
            · refine Or.inl ⟨he, fun j h1 h2 hp => ?_⟩
              by_cases hji : j = i
              · rw [hji] at hp; exact hnp hp
              · exact hn j (by omega) (by push_cast at h2 ⊢; omega) hp
            · refine Or.inr ⟨by omega, by push_cast at hb2 ⊢; omega, hp,
                fun j h1 h2 hpj => ?_⟩
              by_cases hji : j = i
              · rw [hji] at hpj; exact absurd hpj hnp
              · exact hm j (by omega) (by push_cast at h2 ⊢; omega) hpj

theorem sliceScanR_spec (b : Buf) (sIdx st : Int) (ch : Nat) : ∀ (fu : Nat) (e : Int),
    (∀ j : Int, e - fu ≤ j → j < e → (value b (sIdx + j * st)).isSome) →
    ∃ r, sliceScanR b sIdx st ch e fu = some r ∧
      LastIn (fun j => value b (sIdx + j * st) = some ch) (e - fu) e r := by
  intro fu
  induction fu with
  | zero =>
      intro e _
      exact ⟨-1, rfl, Or.inl ⟨rfl, fun j h1 h2 => absurd h1 (by push_cast; omega)⟩⟩
  | succ fu ih =>
      intro e hdef
      have hi := hdef (e-1) (by push_cast; omega) (by omega)
      cases hv : value b (sIdx + (e-1) * st) with
      | none => rw [hv] at hi; simp at hi
      | some v =>
          have hstep : sliceScanR b sIdx st ch e (fu+1)
              = if v = ch then some (e-1) else sliceScanR b sIdx st ch (e-1) fu := by
            simp only [sliceScanR, hv, Option.bind_eq_bind, Option.some_bind]
            split <;> rfl
          by_cases hvc : v = ch
          · rw [hstep, if_pos hvc]
            refine ⟨e-1, rfl, Or.inr ⟨by push_cast; omega, by omega, ?_,
              fun j _ h2 _ => by omega⟩⟩
            show value b (sIdx + (e-1) * st) = some ch
            rw [hv, hvc]
          · rw [hstep, if_neg hvc]
            have hnp : ¬ (value b (sIdx + (e-1) * st) = some ch) := by
              rw [hv]
              intro hx
              exact hvc (Option.some.inj hx)
            obtain ⟨r, hr, hfi⟩ := ih (e-1)
              (fun j h1 h2 => hdef j (by push_cast at h1 ⊢; omega) (by omega))
            refine ⟨r, hr, ?_⟩
            rcases hfi with ⟨he, hn⟩ | ⟨ha, hb2, hp, hm⟩
            · refine Or.inl ⟨he, fun j h1 h2 hp => ?_⟩
              by_cases hje : j = e - 1
              · rw [hje] at hp; exact hnp hp
              · exact hn j (by push_cast at h1 ⊢; omega) (by omega) hp
            · refine Or.inr ⟨by push_cast at ha ⊢; omega, by omega, hp,
                fun j h1 h2 hpj => ?_⟩
              by_cases hje : j = e - 1
              · rw [hje] at hpj; exact absurd hpj hnp
              · exact hm j (by push_cast at h1 ⊢; omega) (by omega) hpj

theorem tdiv_tmod_facts (j L : Int) (hj : 0 ≤ j) (hL : 0 < L) :
    j = j.tdiv L * L + j.tmod L ∧ 0 ≤ j.tmod L ∧ j.tmod L < L ∧ 0 ≤ j.tdiv L := by
  refine ⟨?_, Int.tmod_nonneg _ hj, Int.tmod_lt_of_pos _ hL, ?_⟩
  · have h := Int.tdiv_add_tmod' j L
    omega
  · rw [Int.tdiv_eq_ediv hj hL.le]
    exact Int.ediv_nonneg hj hL.le

theorem tmod_block (j k L : Int) (hL : 0 < L) (hk : k * L ≤ j) (hk2 : j < (k+1) * L)
    (hj : 0 ≤ j) : j.tmod L = j - k * L := by
  have hexp : (k+1) * L = k * L + L := by ring
  rw [Int.tmod_eq_emod hj (by omega)]
  conv_lhs => rw [show j = (j - k * L) + L * k by ring]
  rw [Int.add_mul_emod_self_left]
  exact Int.emod_eq_of_lt (by omega) (by omega)

theorem value_mulB (b : Buf) (n j : Int) (hL : 0 < length b) :
    value (.mulB b n) j = value b (j.tmod (length b)) := by
  show (if length b ≤ 0 then none else _) = _
  rw [if_neg (by omega)]

theorem value_joinB (l r : Buf) (j : Int) :
    value (.joinB l r) j
      = (if j < length l then value l j else value r (j - length l)) := rfl

theorem value_slice1 (b : Buf) (sI eI j : Int) :
    value (.slice1 b sI eI) j = value b (sI + j) := rfl

theorem value_sliceN (b : Buf) (sI eI st j : Int) :
    value (.sliceN b sI eI st) j = value b (sI + j * st) := rfl

/-- `Buffer::findc` correctness: for every well-formed buffer and
non-negative bounds, the search succeeds and returns the first matching
index in `[s, min e length)` (`-1` when there is none). -/
theorem findc_spec : ∀ (b : Buf), WF b → ∀ (s e : Int) (ch : Nat), 0 ≤ s → 0 ≤ e →
    ∃ r, findc b s e ch = some r ∧
      FirstIn (fun j => value b j = some ch) s (min e (length b)) r := by
  intro b
  induction b with
  | str d =>
      intro _ s e ch hs he
      exact ⟨strFindc d s e ch, rfl, strFindc_first d s e ch hs he⟩
  | joinB l r ihl ihr =>
      intro hw s e ch hs he
      obtain ⟨hwl, hwr⟩ := hw
      have hll : 0 ≤ length l := length_nonneg l hwl
      have hrl : 0 ≤ length r := length_nonneg r hwr
      have hljoin : length (.joinB l r) = length l + length r := rfl
      rw [hljoin]
      simp only [findc]
      rw [if_neg (not_lt.mpr hs), if_neg (not_lt.mpr he)]
      rw [show (if e > length l + length r then length l + length r else e)
        = min e (length l + length r) from by split <;> omega]
      by_cases h1 : length l + length r ≤ 0
      · rw [if_pos h1]
        exact ⟨-1, rfl, Or.inl ⟨rfl, fun j hj1 hj2 => absurd hj1 (by omega)⟩⟩
      · rw [if_neg h1]
        by_cases h2 : s > length l + length r
        · rw [if_pos h2]
          exact ⟨-1, rfl, Or.inl ⟨rfl, fun j hj1 hj2 => absurd hj1 (by omega)⟩⟩
        · rw [if_neg h2]
          by_cases h3 : s ≥ min e (length l + length r)
          · rw [if_pos h3]
            exact ⟨-1, rfl, Or.inl ⟨rfl, fun j hj1 hj2 => absurd hj1 (by omega)⟩⟩
          · rw [if_neg h3]
            obtain ⟨p1, hp1, hfi1⟩ : ∃ p1,
                (if s < length l then
                  findc l s (if min e (length l + length r) < length l
                    then min e (length l + length r) else length l) ch
                 else pure (-1)) = some p1 ∧
                FirstIn (fun j => value l j = some ch) s
                  (min (min e (length l + length r)) (length l)) p1 := by
              by_cases hsl : s < length l
              · rw [if_pos hsl]
                obtain ⟨p1, hp1, hfi⟩ := ihl hwl s
                  (if min e (length l + length r) < length l
                    then min e (length l + length r) else length l) ch hs (by split <;> omega)
                refine ⟨p1, hp1, ?_⟩
                rwa [show min (if min e (length l + length r) < length l
                    then min e (length l + length r) else length l) (length l)
                  = min (min e (length l + length r)) (length l) from by split <;> omega] at hfi
              · rw [if_neg hsl]
                exact ⟨-1, rfl, Or.inl ⟨rfl, fun j hj1 hj2 => absurd hj1 (by omega)⟩⟩
            rw [hp1]
            simp only [Option.bind_eq_bind, Option.some_bind]
            by_cases hp1e : p1 = -1
            · rw [if_neg (not_not_intro hp1e)]
              have hnol : ∀ j, s ≤ j → j < min (min e (length l + length r)) (length l) →
                  ¬ (value l j = some ch) := by
                rcases hfi1 with ⟨_, hn⟩ | ⟨ha1, _, _, _⟩
                · exact hn
                · exact absurd ha1 (by omega)
              by_cases he2l : min e (length l + length r) > length l
              · rw [if_pos he2l]
                obtain ⟨p2, hp2, hfi2⟩ := ihr hwr
                  (if s > length l then s - length l else 0)
                  (min e (length l + length r) - length l) ch (by split <;> omega) (by omega)
                rw [show min (min e (length l + length r) - length l) (length r)
                  = min e (length l + length r) - length l from by omega] at hfi2
                rw [hp2]
                simp only [Option.bind_eq_bind, Option.some_bind]
                have hs2 : (s ≤ length l ∧ (if s > length l then s - length l else 0) = 0)
                    ∨ (s > length l ∧
                      (if s > length l then s - length l else 0) = s - length l) := by
                  by_cases hgt : s > length l
                  · exact Or.inr ⟨hgt, if_pos hgt⟩
                  · exact Or.inl ⟨by omega, if_neg hgt⟩
                by_cases hp2e : p2 = -1
                · rw [if_neg (not_not_intro hp2e)]
                  refine ⟨-1, rfl, Or.inl ⟨rfl, fun j hj1 hj2 hpj => ?_⟩⟩
                  replace hpj : value (.joinB l r) j = some ch := hpj
                  rw [value_joinB] at hpj
                  by_cases hjl : j < length l
                  · rw [if_pos hjl] at hpj
                    exact hnol j hj1 (by omega) hpj
                  · rw [if_neg hjl] at hpj
                    rcases hfi2 with ⟨_, hn2⟩ | ⟨ha2, _, _, _⟩
                    · exact hn2 (j - length l) (by omega) (by omega) hpj
                    · exact absurd ha2 (by omega)
                · rw [if_pos hp2e]
                  rcases hfi2 with ⟨he2', _⟩ | ⟨ha2, hb2, hq2, hm2⟩
                  · exact absurd he2' hp2e
                  · refine ⟨p2 + length l, rfl, Or.inr ⟨by omega, by omega, ?_, ?_⟩⟩
                    · show value (.joinB l r) (p2 + length l) = some ch
                      rw [value_joinB, if_neg (by omega),
                        show p2 + length l - length l = p2 by ring]
                      exact hq2
                    · intro j hj1 hj2 hpj
                      replace hpj : value (.joinB l r) j = some ch := hpj
                      rw [value_joinB] at hpj
                      by_cases hjl : j < length l
                      · rw [if_pos hjl] at hpj
                        exact absurd hpj (hnol j hj1 (by omega))
                      · rw [if_neg hjl] at hpj
                        have := hm2 (j - length l) (by omega) (by omega) hpj
                        omega
              · rw [if_neg he2l]
                refine ⟨-1, rfl, Or.inl ⟨rfl, fun j hj1 hj2 hpj => ?_⟩⟩
                replace hpj : value (.joinB l r) j = some ch := hpj
                rw [value_joinB, if_pos (by omega)] at hpj
                exact hnol j hj1 (by omega) hpj
            · rw [if_pos hp1e]
              rcases hfi1 with ⟨he1', _⟩ | ⟨ha1, hb1, hq1, hm1⟩
              · exact absurd he1' hp1e
              · refine ⟨p1, rfl, Or.inr ⟨ha1, by omega, ?_, ?_⟩⟩
                · show value (.joinB l r) p1 = some ch
                  rw [value_joinB, if_pos (by omega)]
                  exact hq1
                · intro j hj1 hj2 hpj
                  by_cases hjl : j < length l
                  · replace hpj : value (.joinB l r) j = some ch := hpj
                    rw [value_joinB, if_pos hjl] at hpj
                    exact hm1 j hj1 (by omega) hpj
                  · omega
  | mulB b n ih =>
      intro hw s e ch hs he
      obtain ⟨hwb, hn⟩ := hw
      have hL0 : 0 ≤ length b := length_nonneg b hwb
      have hml : length (.mulB b n) = length b * n := rfl
      rw [hml]
      simp only [findc]
      by_cases h1 : length b ≤ 0
      · rw [if_pos h1]
        refine ⟨-1, rfl, Or.inl ⟨rfl, fun j hj1 hj2 hpj => ?_⟩⟩
        replace hpj : value (.mulB b n) j = some ch := hpj
        rw [show value (.mulB b n) j = (if length b ≤ 0 then none
          else value b (j.tmod (length b))) from rfl, if_pos h1] at hpj
        exact Option.noConfusion hpj
      · rw [if_neg h1]
        have hL : 0 < length b := by omega
        rw [if_neg (not_lt.mpr hs)]
        rw [show (if e > length b * n then length b * n else e)
          = min e (length b * n) from by split <;> omega]
        by_cases h2 : s ≥ min e (length b * n)
        · rw [if_pos h2]
          exact ⟨-1, rfl, Or.inl ⟨rfl, fun j hj1 hj2 => absurd hj1 (by omega)⟩⟩
        · rw [if_neg h2]
          obtain ⟨hsdec, hsmod0, hsmodL, hsdiv0⟩ := tdiv_tmod_facts s (length b) hs hL
          have hBE : (s.tdiv (length b) + 1) * length b
              = s.tdiv (length b) * length b + length b := by ring
          by_cases h3 : min e (length b * n) ≤ (s.tdiv (length b) + 1) * length b
          · rw [if_pos h3]
            obtain ⟨p, hp, hfi⟩ := ih hwb (s - s.tdiv (length b) * length b)
              (s - s.tdiv (length b) * length b + (min e (length b * n) - s)) ch
              (by omega) (by omega)
            rw [show min (s - s.tdiv (length b) * length b + (min e (length b * n) - s))
              (length b) = s - s.tdiv (length b) * length b + (min e (length b * n) - s)
              from by omega] at hfi
            rw [hp]
            simp only [Option.bind_eq_bind, Option.some_bind]
            have hval : ∀ j : Int, s ≤ j → j < min e (length b * n) →
                value (.mulB b n) j = value b (j - s.tdiv (length b) * length b) := by
              intro j hj1 hj2
              rw [value_mulB b n j hL,
                tmod_block j (s.tdiv (length b)) (length b) hL (by omega) (by omega) (by omega)]
            by_cases hpe : p = -1
            · rw [if_pos hpe]
              refine ⟨-1, rfl, Or.inl ⟨rfl, fun j hj1 hj2 hpj => ?_⟩⟩
              replace hpj : value (.mulB b n) j = some ch := hpj
              rw [hval j hj1 hj2] at hpj
              rcases hfi with ⟨_, hnn⟩ | ⟨ha, _, _, _⟩
              · exact hnn _ (by omega) (by omega) hpj
              · exact absurd ha (by omega)
            · rw [if_neg hpe]
              rcases hfi with ⟨he', _⟩ | ⟨ha, hb2, hq, hm⟩
              · exact absurd he' hpe
              · refine ⟨s.tdiv (length b) * length b + p, rfl,
                  Or.inr ⟨by omega, by omega, ?_, ?_⟩⟩
                · show value (.mulB b n) (s.tdiv (length b) * length b + p) = some ch
                  rw [hval _ (by omega) (by omega),
                    show s.tdiv (length b) * length b + p
                      - s.tdiv (length b) * length b = p by ring]
                  exact hq
                · intro j hj1 hj2 hpj
                  replace hpj : value (.mulB b n) j = some ch := hpj
                  rw [hval j hj1 hj2] at hpj
                  have := hm _ (by omega) (by omega) hpj
                  omega
          · rw [if_neg h3]
            obtain ⟨p, hp, hfi⟩ := ih hwb (s - s.tdiv (length b) * length b)
              (length b) ch (by omega) (by omega)
            rw [min_self] at hfi
            rw [hp]
            simp only [Option.bind_eq_bind, Option.some_bind]
            by_cases hpe : p ≠ -1
            · rw [if_pos hpe]
              rcases hfi with ⟨he', _⟩ | ⟨ha, hb2, hq, hm⟩
              · exact absurd he' hpe
              · refine ⟨s.tdiv (length b) * length b + p, rfl,
                  Or.inr ⟨by omega, by omega, ?_, ?_⟩⟩
                · show value (.mulB b n) (s.tdiv (length b) * length b + p) = some ch
                  rw [value_mulB b n _ hL,
                    tmod_block _ (s.tdiv (length b)) (length b) hL (by omega) (by omega)
                      (by omega),
                    show s.tdiv (length b) * length b + p
                      - s.tdiv (length b) * length b = p by ring]
                  exact hq
                · intro j hj1 hj2 hpj
                  replace hpj : value (.mulB b n) j = some ch := hpj
                  by_cases hjb : j < (s.tdiv (length b) + 1) * length b
                  · rw [value_mulB b n j hL,
                      tmod_block j (s.tdiv (length b)) (length b) hL (by omega) (by omega)
                        (by omega)] at hpj
                    have := hm _ (by omega) (by omega) hpj
                    omega
                  · omega
            · rw [if_neg hpe]
              have hnof : ∀ o, s - s.tdiv (length b) * length b ≤ o → o < length b →
                  ¬ (value b o = some ch) := by
                rcases hfi with ⟨_, hnn⟩ | ⟨ha, _, _, _⟩
                · exact hnn
                · exact absurd ha (by omega)
              by_cases h4 : min e (length b * n) - (s.tdiv (length b) + 1) * length b ≤ 0
              · exfalso; omega
              · rw [if_neg h4]
                by_cases h5 : min e (length b * n) - (s.tdiv (length b) + 1) * length b
                    < length b
                · rw [if_pos h5]
                  rw [if_neg (by omega : ¬ (min e (length b * n)
                    - (s.tdiv (length b) + 1) * length b = length b))]
                  rw [if_neg (by omega : ¬ (min e (length b * n)
                    - (s.tdiv (length b) + 1) * length b ≤ 0))]
                  obtain ⟨p2, hp2, hfi2⟩ := ih hwb 0
                    (min e (length b * n) - (s.tdiv (length b) + 1) * length b) ch
                    le_rfl (by omega)
                  rw [show min (min e (length b * n) - (s.tdiv (length b) + 1) * length b)
                    (length b) = min e (length b * n) - (s.tdiv (length b) + 1) * length b
                    from by omega] at hfi2
                  rw [hp2]
                  simp only [Option.bind_eq_bind, Option.some_bind]
                  have hval2 : ∀ j : Int, (s.tdiv (length b) + 1) * length b ≤ j →
                      j < min e (length b * n) →
                      value (.mulB b n) j
                        = value b (j - (s.tdiv (length b) + 1) * length b) := by
                    intro j hj1 hj2
                    have hx : (s.tdiv (length b) + 1 + 1) * length b
                        = (s.tdiv (length b) + 1) * length b + length b := by ring
                    rw [value_mulB b n j hL,
                      tmod_block j (s.tdiv (length b) + 1) (length b) hL (by omega)
                        (by omega) (by omega)]
                  by_cases hp2e : p2 = -1
                  · rw [if_pos hp2e]
                    refine ⟨-1, rfl, Or.inl ⟨rfl, fun j hj1 hj2 hpj => ?_⟩⟩
                    replace hpj : value (.mulB b n) j = some ch := hpj
                    by_cases hjb : j < (s.tdiv (length b) + 1) * length b
                    · rw [value_mulB b n j hL,
                        tmod_block j (s.tdiv (length b)) (length b) hL (by omega) (by omega)
                          (by omega)] at hpj
                      exact hnof _ (by omega) (by omega) hpj
                    · rw [hval2 j (by omega) hj2] at hpj
                      rcases hfi2 with ⟨_, hnn2⟩ | ⟨ha2, _, _, _⟩
                      · exact hnn2 _ (by omega) (by omega) hpj
                      · exact absurd ha2 (by omega)
                  · rw [if_neg hp2e]
                    rcases hfi2 with ⟨he2', _⟩ | ⟨ha2, hb2, hq2, hm2⟩
                    · exact absurd he2' hp2e
                    · refine ⟨(s.tdiv (length b) + 1) * length b + p2, rfl,
                        Or.inr ⟨by omega, by omega, ?_, ?_⟩⟩
                      · show value (.mulB b n)
                          ((s.tdiv (length b) + 1) * length b + p2) = some ch
                        rw [hval2 _ (by omega) (by omega),
                          show (s.tdiv (length b) + 1) * length b + p2
                            - (s.tdiv (length b) + 1) * length b = p2 by ring]
                        exact hq2
                      · intro j hj1 hj2 hpj
                        replace hpj : value (.mulB b n) j = some ch := hpj
                        by_cases hjb : j < (s.tdiv (length b) + 1) * length b
                        · rw [value_mulB b n j hL,
                            tmod_block j (s.tdiv (length b)) (length b) hL (by omega)
                              (by omega) (by omega)] at hpj
                          exact absurd hpj (hnof _ (by omega) (by omega))
                        · rw [hval2 j (by omega) hj2] at hpj
                          have := hm2 _ (by omega) (by omega) hpj
                          omega
                · rw [if_neg h5]
                  rw [if_pos rfl]
                  by_cases h6 : s - s.tdiv (length b) * length b ≤ 0
                  · rw [if_pos h6]
                    refine ⟨-1, rfl, Or.inl ⟨rfl, fun j hj1 hj2 hpj => ?_⟩⟩
                    replace hpj : value (.mulB b n) j = some ch := hpj
                    obtain ⟨hjd, hjm0, hjmL, _⟩ := tdiv_tmod_facts j (length b) (by omega) hL
                    rw [value_mulB b n j hL] at hpj
                    exact hnof _ (by omega) (by omega) hpj
                  · rw [if_neg h6]
                    obtain ⟨p2, hp2, hfi2⟩ := ih hwb 0 (s - s.tdiv (length b) * length b) ch
                      le_rfl (by omega)
                    rw [show min (s - s.tdiv (length b) * length b) (length b)
                      = s - s.tdiv (length b) * length b from by omega] at hfi2
                    rw [hp2]
                    simp only [Option.bind_eq_bind, Option.some_bind]
                    by_cases hp2e : p2 = -1
                    · rw [if_pos hp2e]
                      refine ⟨-1, rfl, Or.inl ⟨rfl, fun j hj1 hj2 hpj => ?_⟩⟩
                      replace hpj : value (.mulB b n) j = some ch := hpj
                      obtain ⟨hjd, hjm0, hjmL, _⟩ := tdiv_tmod_facts j (length b) (by omega) hL
                      rw [value_mulB b n j hL] at hpj
                      by_cases hjo : s - s.tdiv (length b) * length b ≤ j.tmod (length b)
                      · exact hnof _ (by omega) (by omega) hpj
                      · rcases hfi2 with ⟨_, hnn2⟩ | ⟨ha2, _, _, _⟩
                        · exact hnn2 _ (by omega) (by omega) hpj
                        · exact absurd ha2 (by omega)
                    · rw [if_neg hp2e]
                      rcases hfi2 with ⟨he2', _⟩ | ⟨ha2, hb2, hq2, hm2⟩
                      · exact absurd he2' hp2e
                      · have hx : (s.tdiv (length b) + 1 + 1) * length b
                            = (s.tdiv (length b) + 1) * length b + length b := by ring
                        refine ⟨(s.tdiv (length b) + 1) * length b + p2, rfl,
                          Or.inr ⟨by omega, by omega, ?_, ?_⟩⟩
                        · show value (.mulB b n)
                            ((s.tdiv (length b) + 1) * length b + p2) = some ch
                          rw [value_mulB b n _ hL,
                            tmod_block _ (s.tdiv (length b) + 1) (length b) hL (by omega)
                              (by omega) (by omega),
                            show (s.tdiv (length b) + 1) * length b + p2
                              - (s.tdiv (length b) + 1) * length b = p2 by ring]
                          exact hq2
                        · intro j hj1 hj2 hpj
                          replace hpj : value (.mulB b n) j = some ch := hpj
                          by_cases hjb : j < (s.tdiv (length b) + 1) * length b
                          · rw [value_mulB b n j hL,
                              tmod_block j (s.tdiv (length b)) (length b) hL (by omega)
                                (by omega) (by omega)] at hpj
                            exact absurd hpj (hnof _ (by omega) (by omega))
                          · by_cases hjt : j < (s.tdiv (length b) + 1) * length b + length b
                            · rw [value_mulB b n j hL,
                                tmod_block j (s.tdiv (length b) + 1) (length b) hL (by omega)
                                  (by omega) (by omega)] at hpj
                              have ho2 : j - (s.tdiv (length b) + 1) * length b
                                  < s - s.tdiv (length b) * length b := by
                                by_contra hcc
                                exact hnof _ (by omega) (by omega) hpj
                              have := hm2 _ (by omega) (by omega) hpj
                              omega
                            · omega
  | slice1 b sI eI ih =>
      intro hw s e ch hs he
      obtain ⟨hwb, hbnd⟩ := hw
      have hsl : length (.slice1 b sI eI) = (if eI > sI then eI - sI else 0) := rfl
      rw [hsl]
      simp only [findc]
      by_cases h1 : (if eI > sI then eI - sI else 0) ≤ 0
      · rw [if_pos h1]
        exact ⟨-1, rfl, Or.inl ⟨rfl, fun j hj1 hj2 => absurd hj1 (by omega)⟩⟩
      · rw [if_neg h1]
        have hse : sI < eI := by
          by_contra hcc
          rw [if_neg (by omega)] at h1
          omega
        have hlen2 : (if eI > sI then eI - sI else 0) = eI - sI := if_pos hse
        rw [hlen2]
        obtain ⟨hs0, heb⟩ := hbnd hse
        rw [if_neg (not_lt.mpr hs), if_neg (not_lt.mpr he)]
        by_cases h2 : s > eI - sI
        · rw [if_pos h2]
          exact ⟨-1, rfl, Or.inl ⟨rfl, fun j hj1 hj2 => absurd hj1 (by omega)⟩⟩
        · rw [if_neg h2]
          rw [show (if e > eI - sI then eI - sI else e) = min e (eI - sI)
            from by split <;> omega]
          by_cases h3 : s ≥ min e (eI - sI)
          · rw [if_pos h3]
            exact ⟨-1, rfl, Or.inl ⟨rfl, fun j hj1 hj2 => absurd hj1 (by omega)⟩⟩
          · rw [if_neg h3]
            obtain ⟨p, hp, hfi⟩ := ih hwb (sI + s) (sI + min e (eI - sI)) ch
              (by omega) (by omega)
            rw [show min (sI + min e (eI - sI)) (length b) = sI + min e (eI - sI)
              from by omega] at hfi
            rw [hp]
            simp only [Option.bind_eq_bind, Option.some_bind]
            by_cases hpe : p = -1
            · rw [if_pos hpe]
              refine ⟨-1, rfl, Or.inl ⟨rfl, fun j hj1 hj2 hpj => ?_⟩⟩
              replace hpj : value (.slice1 b sI eI) j = some ch := hpj
              rw [value_slice1] at hpj
              rcases hfi with ⟨_, hnn⟩ | ⟨ha, _, _, _⟩
              · exact hnn (sI + j) (by omega) (by omega) hpj
              · exact absurd ha (by omega)
            · rw [if_neg hpe]
              rcases hfi with ⟨he', _⟩ | ⟨ha, hb2, hq, hm⟩
              · exact absurd he' hpe
              · refine ⟨p - sI, rfl, Or.inr ⟨by omega, by omega, ?_, ?_⟩⟩
                · show value (.slice1 b sI eI) (p - sI) = some ch
                  rw [value_slice1, show sI + (p - sI) = p by ring]
                  exact hq
                · intro j hj1 hj2 hpj
                  replace hpj : value (.slice1 b sI eI) j = some ch := hpj
                  rw [value_slice1] at hpj
                  have := hm (sI + j) (by omega) (by omega) hpj
                  omega
  | sliceN b sI eI st ih =>
      intro hw s e ch hs he
      obtain ⟨hwb, hst, hbnd⟩ := hw
      have hsl : length (.sliceN b sI eI st) = compute_len sI eI st := rfl
      have hbnd2 : ∀ i : Int, 0 ≤ i → i < compute_len sI eI st →
          0 ≤ sI + i * st ∧ sI + i * st < length b := by
        intro i h0 hi
        exact hbnd i h0 (by rw [hsl]; omega)
      rw [hsl]
      simp only [findc]
      rw [show (fun j => value (Buf.sliceN b sI eI st) j = some ch)
        = (fun j => value b (sI + j * st) = some ch)
        from funext fun j => by rw [value_sliceN]]
      by_cases h1 : compute_len sI eI st ≤ 0
      · rw [if_pos h1]
        exact ⟨-1, rfl, Or.inl ⟨rfl, fun j hj1 hj2 => absurd hj1 (by omega)⟩⟩
      · rw [if_neg h1]
        rw [if_neg (not_lt.mpr hs), if_neg (not_lt.mpr he)]
        by_cases h2 : s > compute_len sI eI st
        · rw [if_pos h2]
          exact ⟨-1, rfl, Or.inl ⟨rfl, fun j hj1 hj2 => absurd hj1 (by omega)⟩⟩
        · rw [if_neg h2]
          rw [show (if e > compute_len sI eI st then compute_len sI eI st else e)
            = min e (compute_len sI eI st) from by split <;> omega]
          by_cases h3 : s ≥ min e (compute_len sI eI st)
          · rw [if_pos h3]
            exact ⟨-1, rfl, Or.inl ⟨rfl, fun j hj1 hj2 => absurd hj1 (by omega)⟩⟩
          · rw [if_neg h3]
            have hdef : ∀ j : Int, s ≤ j →
                j < s + ((min e (compute_len sI eI st) - s).toNat : Int) →
                (value b (sI + j * st)).isSome := by
              intro j hj1 hj2
              obtain ⟨hlo, hhi⟩ := hbnd2 j (by omega) (by omega)
              obtain ⟨v, hv⟩ := value_isSome b hwb _ hlo hhi
              rw [hv]; rfl
            obtain ⟨r', hr', hfi⟩ := sliceScanF_spec b sI st ch
              (min e (compute_len sI eI st) - s).toNat s hdef
            refine ⟨r', hr', ?_⟩
            rwa [show s + (((min e (compute_len sI eI st) - s).toNat : Int))
              = min e (compute_len sI eI st) from by omega] at hfi

/-- `Buffer::rfindc` correctness: for every well-formed buffer and
non-negative bounds, the reverse search succeeds and returns the last
matching index in `[s, min e length)` (`-1` when there is none). -/
theorem rfindc_spec : ∀ (b : Buf), WF b → ∀ (s e : Int) (ch : Nat), 0 ≤ s → 0 ≤ e →
    ∃ r, rfindc b s e ch = some r ∧
      LastIn (fun j => value b j = some ch) s (min e (length b)) r := by
  intro b
  induction b with
  | str d =>
      intro _ s e ch hs he
      exact ⟨strRFindc d s e ch, rfl, strRFindc_last d s e ch hs he⟩
  | joinB l r ihl ihr =>
      intro hw s e ch hs he
      obtain ⟨hwl, hwr⟩ := hw
      have hll : 0 ≤ length l := length_nonneg l hwl
      have hrl : 0 ≤ length r := length_nonneg r hwr
      have hljoin : length (.joinB l r) = length l + length r := rfl
      rw [hljoin]
      simp only [rfindc]
      rw [if_neg (not_lt.mpr hs), if_neg (not_lt.mpr he)]
      rw [show (if e > length l + length r then length l + length r else e)
        = min e (length l + length r) from by split <;> omega]
      by_cases h1 : length l + length r ≤ 0
      · rw [if_pos h1]
        exact ⟨-1, rfl, Or.inl ⟨rfl, fun j hj1 hj2 => absurd hj1 (by omega)⟩⟩
      · rw [if_neg h1]
        by_cases h2 : s > length l + length r
        · rw [if_pos h2]
          exact ⟨-1, rfl, Or.inl ⟨rfl, fun j hj1 hj2 => absurd hj1 (by omega)⟩⟩
        · rw [if_neg h2]
          by_cases h3 : s ≥ min e (length l + length r)
          · rw [if_pos h3]
            exact ⟨-1, rfl, Or.inl ⟨rfl, fun j hj1 hj2 => absurd hj1 (by omega)⟩⟩
          · rw [if_neg h3]
            have hs2 : (s ≤ length l ∧ (if s > length l then s - length l else 0) = 0)
                ∨ (s > length l ∧
                  (if s > length l then s - length l else 0) = s - length l) := by
              by_cases hgt : s > length l
              · exact Or.inr ⟨hgt, if_pos hgt⟩
              · exact Or.inl ⟨by omega, if_neg hgt⟩
            obtain ⟨p1, hp1, hfi1⟩ : ∃ p1,
                (if min e (length l + length r) > length l then
                  rfindc r (if s > length l then s - length l else 0)
                    (min e (length l + length r) - length l) ch
                 else pure (-1)) = some p1 ∧
                LastIn (fun j => value r j = some ch)
                  (if s > length l then s - length l else 0)
                  (min e (length l + length r) - length l) p1 := by
              by_cases hel : min e (length l + length r) > length l
              · rw [if_pos hel]
                obtain ⟨p1, hp1, hfi⟩ := ihr hwr
                  (if s > length l then s - length l else 0)
                  (min e (length l + length r) - length l) ch (by split <;> omega) (by omega)
                refine ⟨p1, hp1, ?_⟩
                rwa [show min (min e (length l + length r) - length l) (length r)
                  = min e (length l + length r) - length l from by omega] at hfi
              · rw [if_neg hel]
                exact ⟨-1, rfl, Or.inl ⟨rfl, fun j hj1 hj2 => absurd hj2 (by omega)⟩⟩
            rw [hp1]
            simp only [Option.bind_eq_bind, Option.some_bind]
            by_cases hp1e : p1 = -1
            · rw [if_neg (not_not_intro hp1e)]
              have hnor : ∀ j, (if s > length l then s - length l else 0) ≤ j →
                  j < min e (length l + length r) - length l →
                  ¬ (value r j = some ch) := by
                rcases hfi1 with ⟨_, hn⟩ | ⟨ha1, _, _, _⟩
                · exact hn
                · exact absurd ha1 (by omega)
              by_cases hsl : s < length l
              · rw [if_pos hsl]
                obtain ⟨p2, hp2, hfi2⟩ := ihl hwl s
                  (if min e (length l + length r) < length l
                    then min e (length l + length r) else length l) ch hs
                  (by split <;> omega)
                rw [show min (if min e (length l + length r) < length l
                    then min e (length l + length r) else length l) (length l)
                  = min (min e (length l + length r)) (length l)
                  from by split <;> omega] at hfi2
                rw [hp2]
                simp only [Option.bind_eq_bind, Option.some_bind]
                by_cases hp2e : p2 = -1
                · rw [if_neg (not_not_intro hp2e)]
                  have hnoll : ∀ j, s ≤ j →
                      j < min (min e (length l + length r)) (length l) →
                      ¬ (value l j = some ch) := by
                    rcases hfi2 with ⟨_, hn⟩ | ⟨ha2, _, _, _⟩
                    · exact hn
                    · exact absurd ha2 (by omega)
                  refine ⟨-1, rfl, Or.inl ⟨rfl, fun j hj1 hj2 hpj => ?_⟩⟩
                  replace hpj : value (.joinB l r) j = some ch := hpj
                  rw [value_joinB] at hpj
                  by_cases hjl : j < length l
                  · rw [if_pos hjl] at hpj
                    exact hnoll j hj1 (by omega) hpj
                  · rw [if_neg hjl] at hpj
                    exact hnor (j - length l) (by omega) (by omega) hpj
                · rw [if_pos hp2e]
                  rcases hfi2 with ⟨he2', _⟩ | ⟨ha2, hb2, hq2, hm2⟩
                  · exact absurd he2' hp2e
                  · refine ⟨p2, rfl, Or.inr ⟨ha2, by omega, ?_, ?_⟩⟩
                    · show value (.joinB l r) p2 = some ch
                      rw [value_joinB, if_pos (by omega)]
                      exact hq2
                    · intro j hj1 hj2 hpj
                      replace hpj : value (.joinB l r) j = some ch := hpj
                      rw [value_joinB] at hpj
                      by_cases hjl : j < length l
                      · rw [if_pos hjl] at hpj
                        exact hm2 j hj1 (by omega) hpj
                      · rw [if_neg hjl] at hpj
                        exact absurd hpj (hnor (j - length l) (by omega) (by omega))
              · rw [if_neg hsl]
                refine ⟨-1, rfl, Or.inl ⟨rfl, fun j hj1 hj2 hpj => ?_⟩⟩
                replace hpj : value (.joinB l r) j = some ch := hpj
                rw [value_joinB, if_neg (by omega)] at hpj
                exact hnor (j - length l) (by omega) (by omega) hpj
            · rw [if_pos hp1e]
              rcases hfi1 with ⟨he1', _⟩ | ⟨ha1, hb1, hq1, hm1⟩
              · exact absurd he1' hp1e
              · refine ⟨p1 + length l, rfl, Or.inr ⟨by omega, by omega, ?_, ?_⟩⟩
                · show value (.joinB l r) (p1 + length l) = some ch
                  rw [value_joinB, if_neg (by omega),
                    show p1 + length l - length l = p1 by ring]
                  exact hq1
                · intro j hj1 hj2 hpj
                  replace hpj : value (.joinB l r) j = some ch := hpj
                  rw [value_joinB] at hpj
                  by_cases hjl : j < length l
                  · omega
                  · rw [if_neg hjl] at hpj
                    have := hm1 (j - length l) (by omega) (by omega) hpj
                    omega
  | mulB b n ih =>
      intro hw s e ch hs he
      obtain ⟨hwb, hn⟩ := hw
      have hL0 : 0 ≤ length b := length_nonneg b hwb
      have hml : length (.mulB b n) = length b * n := rfl
      rw [hml]
      simp only [rfindc]
      by_cases h1 : length b ≤ 0
      · rw [if_pos h1]
        refine ⟨-1, rfl, Or.inl ⟨rfl, fun j hj1 hj2 hpj => ?_⟩⟩
        replace hpj : value (.mulB b n) j = some ch := hpj
        rw [show value (.mulB b n) j = (if length b ≤ 0 then none
          else value b (j.tmod (length b))) from rfl, if_pos h1] at hpj
        exact Option.noConfusion hpj
      · rw [if_neg h1]
        have hL : 0 < length b := by omega
        rw [if_neg (not_lt.mpr hs)]
        rw [show (if e > length b * n then length b * n else e)
          = min e (length b * n) from by split <;> omega]
        by_cases h2 : s ≥ min e (length b * n)
        · rw [if_pos h2]
          exact ⟨-1, rfl, Or.inl ⟨rfl, fun j hj1 hj2 => absurd hj1 (by omega)⟩⟩
        · rw [if_neg h2]
          obtain ⟨hsdec, hsmod0, hsmodL, hsdiv0⟩ := tdiv_tmod_facts s (length b) hs hL
          obtain ⟨hldec, hlm0, hlmL, hldiv0⟩ :=
            tdiv_tmod_facts (min e (length b * n) - 1) (length b) (by omega) hL
          have hR1L0 : 0 ≤ s.tdiv (length b) * length b := mul_nonneg hsdiv0 hL0
          have hR2L0 : 0 ≤ (min e (length b * n) - 1).tdiv (length b) * length b :=
            mul_nonneg hldiv0 hL0
          have hBE : (s.tdiv (length b) + 1) * length b
              = s.tdiv (length b) * length b + length b := by ring
          have hBE2 : ((min e (length b * n) - 1).tdiv (length b) + 1) * length b
              = (min e (length b * n) - 1).tdiv (length b) * length b + length b := by ring
          have hBE3 : ((min e (length b * n) - 1).tdiv (length b) - 1) * length b
              = (min e (length b * n) - 1).tdiv (length b) * length b - length b := by ring
          have hBE4 : ((min e (length b * n) - 1).tdiv (length b) - 1 + 1) * length b
              = (min e (length b * n) - 1).tdiv (length b) * length b := by ring
          have hmono : s.tdiv (length b) ≤ (min e (length b * n) - 1).tdiv (length b) := by
            rw [Int.tdiv_eq_ediv hs hL.le, Int.tdiv_eq_ediv (by omega) hL.le]
            exact Int.ediv_le_ediv hL (by omega)
          by_cases hreq : (min e (length b * n) - 1).tdiv (length b) = s.tdiv (length b)
          · rw [if_pos hreq]
            rw [hreq] at hldec ⊢
            obtain ⟨p, hp, hfi⟩ := ih hwb (s - s.tdiv (length b) * length b)
              (min e (length b * n) - 1 - s.tdiv (length b) * length b + 1) ch
              (by omega) (by omega)
            rw [show min (min e (length b * n) - 1 - s.tdiv (length b) * length b + 1)
              (length b) = min e (length b * n) - 1 - s.tdiv (length b) * length b + 1
              from by omega] at hfi
            rw [hp]
            simp only [Option.bind_eq_bind, Option.some_bind]
            by_cases hpe : p = -1
            · rw [if_pos hpe]
              have hno : ∀ o, s - s.tdiv (length b) * length b ≤ o →
                  o < min e (length b * n) - 1 - s.tdiv (length b) * length b + 1 →
                  ¬ (value b o = some ch) := by
                rcases hfi with ⟨_, hnn⟩ | ⟨ha, _, _, _⟩
                · exact hnn
                · exact absurd ha (by omega)
              refine ⟨-1, rfl, Or.inl ⟨rfl, fun j hj1 hj2 hpj => ?_⟩⟩
              replace hpj : value (.mulB b n) j = some ch := hpj
              rw [value_mulB b n j hL,
                tmod_block j (s.tdiv (length b)) (length b) hL (by omega) (by omega)
                  (by omega)] at hpj
              exact hno _ (by omega) (by omega) hpj
            · rw [if_neg hpe]
              rcases hfi with ⟨he', _⟩ | ⟨ha, hb2, hq, hm⟩
              · exact absurd he' hpe
              · refine ⟨s.tdiv (length b) * length b + p, rfl,
                  Or.inr ⟨by omega, by omega, ?_, ?_⟩⟩
                · show value (.mulB b n) (s.tdiv (length b) * length b + p) = some ch
                  rw [value_mulB b n _ hL,
                    tmod_block _ (s.tdiv (length b)) (length b) hL (by omega) (by omega)
                      (by omega),
                    show s.tdiv (length b) * length b + p
                      - s.tdiv (length b) * length b = p by ring]
                  exact hq
                · intro j hj1 hj2 hpj
                  replace hpj : value (.mulB b n) j = some ch := hpj
                  rw [value_mulB b n j hL,
                    tmod_block j (s.tdiv (length b)) (length b) hL (by omega) (by omega)
                      (by omega)] at hpj
                  have := hm _ (by omega) (by omega) hpj
                  omega
          · rw [if_neg hreq]
            have h12 : s.tdiv (length b) + 1
                ≤ (min e (length b * n) - 1).tdiv (length b) := by omega
            have hblk := mul_le_mul_of_nonneg_right h12 hL0
            obtain ⟨p, hp, hfi⟩ := ih hwb 0
              (min e (length b * n) - 1
                - (min e (length b * n) - 1).tdiv (length b) * length b + 1) ch
              le_rfl (by omega)
            rw [show min (min e (length b * n) - 1
                - (min e (length b * n) - 1).tdiv (length b) * length b + 1) (length b)
              = min e (length b * n) - 1
                - (min e (length b * n) - 1).tdiv (length b) * length b + 1
              from by omega] at hfi
            rw [hp]
            simp only [Option.bind_eq_bind, Option.some_bind]
            by_cases hpe : p ≠ -1
            · rw [if_pos hpe]
              rcases hfi with ⟨he', _⟩ | ⟨ha, hb2, hq, hm⟩
              · exact absurd he' hpe
              · refine ⟨(min e (length b * n) - 1).tdiv (length b) * length b + p, rfl,
                  Or.inr ⟨by omega, by omega, ?_, ?_⟩⟩
                · show value (.mulB b n)
                    ((min e (length b * n) - 1).tdiv (length b) * length b + p) = some ch
                  rw [value_mulB b n _ hL,
                    tmod_block _ ((min e (length b * n) - 1).tdiv (length b)) (length b)
                      hL (by omega) (by omega) (by omega),
                    show (min e (length b * n) - 1).tdiv (length b) * length b + p
                      - (min e (length b * n) - 1).tdiv (length b) * length b
                      = p by ring]
                  exact hq
                · intro j hj1 hj2 hpj
                  replace hpj : value (.mulB b n) j = some ch := hpj
                  by_cases hjb : (min e (length b * n) - 1).tdiv (length b) * length b ≤ j
                  · rw [value_mulB b n j hL,
                      tmod_block j ((min e (length b * n) - 1).tdiv (length b)) (length b)
                        hL hjb (by omega) (by omega)] at hpj
                    have := hm _ (by omega) (by omega) hpj
                    omega
                  · omega
            · rw [if_neg hpe]
              have hpeq : p = -1 := not_not.mp hpe
              have hno1 : ∀ o, 0 ≤ o →
                  o < min e (length b * n) - 1
                    - (min e (length b * n) - 1).tdiv (length b) * length b + 1 →
                  ¬ (value b o = some ch) := by
                rcases hfi with ⟨_, hnn⟩ | ⟨ha, _, _, _⟩
                · exact hnn
                · exact absurd ha (by omega)
              by_cases hc : ((min e (length b * n) - 1).tdiv (length b) - 1
                    = s.tdiv (length b)
                  ∧ min e (length b * n) - 1
                      - (min e (length b * n) - 1).tdiv (length b) * length b + 1
                    < s - s.tdiv (length b) * length b)
              · rw [if_pos hc]
                have hR2eq : (min e (length b * n) - 1).tdiv (length b)
                    = s.tdiv (length b) + 1 := by
                  obtain ⟨hc1, _⟩ := hc
                  omega
                rw [hR2eq] at hldec hno1 ⊢
                have hBE7 : (s.tdiv (length b) + 1 + 1) * length b
                    = (s.tdiv (length b) + 1) * length b + length b := by ring
                have hBE6 : (s.tdiv (length b) + 1 - 1) * length b
                    = s.tdiv (length b) * length b := by ring
                rw [if_neg (by omega : ¬ s - s.tdiv (length b) * length b ≥ length b)]
                obtain ⟨p2, hp2, hfi2⟩ := ih hwb (s - s.tdiv (length b) * length b)
                  (length b) ch (by omega) (by omega)
                rw [min_self] at hfi2
                rw [hp2]
                simp only [Option.bind_eq_bind, Option.some_bind]
                by_cases hp2e : p2 = -1
                · rw [if_pos hp2e]
                  have hno2 : ∀ o, s - s.tdiv (length b) * length b ≤ o → o < length b →
                      ¬ (value b o = some ch) := by
                    rcases hfi2 with ⟨_, hnn⟩ | ⟨ha2, _, _, _⟩
                    · exact hnn
                    · exact absurd ha2 (by omega)
                  refine ⟨-1, rfl, Or.inl ⟨rfl, fun j hj1 hj2 hpj => ?_⟩⟩
                  replace hpj : value (.mulB b n) j = some ch := hpj
                  by_cases hjb : (s.tdiv (length b) + 1) * length b ≤ j
                  · rw [value_mulB b n j hL,
                      tmod_block j (s.tdiv (length b) + 1) (length b) hL hjb
                        (by omega) (by omega)] at hpj
                    exact hno1 _ (by omega) (by omega) hpj
                  · rw [value_mulB b n j hL,
                      tmod_block j (s.tdiv (length b)) (length b) hL (by omega) (by omega)
                        (by omega)] at hpj
                    exact hno2 _ (by omega) (by omega) hpj
                · rw [if_neg hp2e]
                  rcases hfi2 with ⟨he2', _⟩ | ⟨ha2, hb2, hq2, hm2⟩
                  · exact absurd he2' hp2e
                  · refine ⟨(s.tdiv (length b) + 1 - 1) * length b + p2, rfl,
                      Or.inr ⟨by omega, by omega, ?_, ?_⟩⟩
                    · show value (.mulB b n)
                        ((s.tdiv (length b) + 1 - 1) * length b + p2) = some ch
                      rw [value_mulB b n _ hL,
                        tmod_block _ (s.tdiv (length b)) (length b) hL (by omega)
                          (by omega) (by omega),
                        show (s.tdiv (length b) + 1 - 1) * length b + p2
                          - s.tdiv (length b) * length b = p2 by ring]
                      exact hq2
                    · intro j hj1 hj2 hpj
                      replace hpj : value (.mulB b n) j = some ch := hpj
                      by_cases hjb : (s.tdiv (length b) + 1) * length b ≤ j
                      · rw [value_mulB b n j hL,
                          tmod_block j (s.tdiv (length b) + 1) (length b) hL hjb
                            (by omega) (by omega)] at hpj
                        exact absurd hpj (hno1 _ (by omega) (by omega))
                      · rw [value_mulB b n j hL,
                          tmod_block j (s.tdiv (length b)) (length b) hL (by omega)
                            (by omega) (by omega)] at hpj
                        have := hm2 _ (by omega) (by omega) hpj
                        omega
              · rw [if_neg hc]
                have hnc := not_and_or.mp hc
                have hstart_le : ∀ o : Int,
                    min e (length b * n) - 1
                      - (min e (length b * n) - 1).tdiv (length b) * length b + 1 ≤ o →
                    s ≤ ((min e (length b * n) - 1).tdiv (length b) - 1) * length b + o := by
                  intro o ho
                  rcases hnc with hA | hB
                  · have h13 : s.tdiv (length b) + 2
                        ≤ (min e (length b * n) - 1).tdiv (length b) := by omega
                    have hblk4 := mul_le_mul_of_nonneg_right h13 hL0
                    have hBE8 : (s.tdiv (length b) + 2) * length b
                        = s.tdiv (length b) * length b + 2 * length b := by ring
                    omega
                  · omega
                by_cases hlw : min e (length b * n) - 1
                    - (min e (length b * n) - 1).tdiv (length b) * length b + 1 ≥ length b
                · rw [if_pos hlw]
                  refine ⟨-1, rfl, Or.inl ⟨rfl, fun j hj1 hj2 hpj => ?_⟩⟩
                  replace hpj : value (.mulB b n) j = some ch := hpj
                  obtain ⟨hjd, hjm0, hjmL, _⟩ := tdiv_tmod_facts j (length b) (by omega) hL
                  rw [value_mulB b n j hL] at hpj
                  exact hno1 _ (by omega) (by omega) hpj
                · rw [if_neg hlw]
                  obtain ⟨p2, hp2, hfi2⟩ := ih hwb
                    (min e (length b * n) - 1
                      - (min e (length b * n) - 1).tdiv (length b) * length b + 1)
                    (length b) ch (by omega) (by omega)
                  rw [min_self] at hfi2
                  rw [hp2]
                  simp only [Option.bind_eq_bind, Option.some_bind]
                  by_cases hp2e : p2 = -1
                  · rw [if_pos hp2e]
                    have hno2 : ∀ o,
                        min e (length b * n) - 1
                          - (min e (length b * n) - 1).tdiv (length b) * length b + 1
                          ≤ o →
                        o < length b → ¬ (value b o = some ch) := by
                      rcases hfi2 with ⟨_, hnn⟩ | ⟨ha2, _, _, _⟩
                      · exact hnn
                      · exact absurd ha2 (by omega)
                    refine ⟨-1, rfl, Or.inl ⟨rfl, fun j hj1 hj2 hpj => ?_⟩⟩
                    replace hpj : value (.mulB b n) j = some ch := hpj
                    obtain ⟨hjd, hjm0, hjmL, _⟩ :=
                      tdiv_tmod_facts j (length b) (by omega) hL
                    rw [value_mulB b n j hL] at hpj
                    by_cases hoe : j.tmod (length b)
                        < min e (length b * n) - 1
                          - (min e (length b * n) - 1).tdiv (length b) * length b + 1
                    · exact hno1 _ (by omega) hoe hpj
                    · exact hno2 _ (by omega) (by omega) hpj
                  · rw [if_neg hp2e]
                    rcases hfi2 with ⟨he2', _⟩ | ⟨ha2, hb2, hq2, hm2⟩
                    · exact absurd he2' hp2e
                    · refine ⟨((min e (length b * n) - 1).tdiv (length b) - 1) * length b
                          + p2, rfl, Or.inr ⟨hstart_le p2 ha2, by omega, ?_, ?_⟩⟩
                      · show value (.mulB b n)
                          (((min e (length b * n) - 1).tdiv (length b) - 1) * length b
                            + p2) = some ch
                        rw [value_mulB b n _ hL,
                          tmod_block _ ((min e (length b * n) - 1).tdiv (length b) - 1)
                            (length b) hL (by omega) (by omega) (by omega),
                          show ((min e (length b * n) - 1).tdiv (length b) - 1) * length b
                              + p2
                            - ((min e (length b * n) - 1).tdiv (length b) - 1) * length b
                            = p2 by ring]
                        exact hq2
                      · intro j hj1 hj2 hpj
                        replace hpj : value (.mulB b n) j = some ch := hpj
                        by_cases hjb :
                            (min e (length b * n) - 1).tdiv (length b) * length b ≤ j
                        · rw [value_mulB b n j hL,
                            tmod_block j ((min e (length b * n) - 1).tdiv (length b))
                              (length b) hL hjb (by omega) (by omega)] at hpj
                          exact absurd hpj (hno1 _ (by omega) (by omega))
                        · by_cases hjb2 :
                              ((min e (length b * n) - 1).tdiv (length b) - 1) * length b
                                ≤ j
                          · rw [value_mulB b n j hL,
                              tmod_block j
                                ((min e (length b * n) - 1).tdiv (length b) - 1)
                                (length b) hL hjb2 (by omega) (by omega)] at hpj
                            by_cases hoe : j
                                - ((min e (length b * n) - 1).tdiv (length b) - 1)
                                  * length b
                                < min e (length b * n) - 1
                                  - (min e (length b * n) - 1).tdiv (length b) * length b
                                  + 1
                            · exact absurd hpj (hno1 _ (by omega) (by omega))
                            · have := hm2 _ (by omega) (by omega) hpj
                              omega
                          · omega
  | slice1 b sI eI ih =>
      intro hw s e ch hs he
      obtain ⟨hwb, hbnd⟩ := hw
      have hsl : length (.slice1 b sI eI) = (if eI > sI then eI - sI else 0) := rfl
      rw [hsl]
      simp only [rfindc]
      by_cases h1 : (if eI > sI then eI - sI else 0) ≤ 0
      · rw [if_pos h1]
        exact ⟨-1, rfl, Or.inl ⟨rfl, fun j hj1 hj2 => absurd hj1 (by omega)⟩⟩
      · rw [if_neg h1]
        have hse : sI < eI := by
          by_contra hcc
          rw [if_neg (by omega)] at h1
          omega
        have hlen2 : (if eI > sI then eI - sI else 0) = eI - sI := if_pos hse
        rw [hlen2]
        obtain ⟨hs0, heb⟩ := hbnd hse
        rw [if_neg (not_lt.mpr hs), if_neg (not_lt.mpr he)]
        by_cases h2 : s > eI - sI
        · rw [if_pos h2]
          exact ⟨-1, rfl, Or.inl ⟨rfl, fun j hj1 hj2 => absurd hj1 (by omega)⟩⟩
        · rw [if_neg h2]
          rw [show (if e > eI - sI then eI - sI else e) = min e (eI - sI)
            from by split <;> omega]
          by_cases h3 : s ≥ min e (eI - sI)
          · rw [if_pos h3]
            exact ⟨-1, rfl, Or.inl ⟨rfl, fun j hj1 hj2 => absurd hj1 (by omega)⟩⟩
          · rw [if_neg h3]
            obtain ⟨p, hp, hfi⟩ := ih hwb (sI + s) (sI + min e (eI - sI)) ch
              (by omega) (by omega)
            rw [show min (sI + min e (eI - sI)) (length b) = sI + min e (eI - sI)
              from by omega] at hfi
            rw [hp]
            simp only [Option.bind_eq_bind, Option.some_bind]
            by_cases hpe : p = -1
            · rw [if_pos hpe]
              refine ⟨-1, rfl, Or.inl ⟨rfl, fun j hj1 hj2 hpj => ?_⟩⟩
              replace hpj : value (.slice1 b sI eI) j = some ch := hpj
              rw [value_slice1] at hpj
              rcases hfi with ⟨_, hnn⟩ | ⟨ha, _, _, _⟩
              · exact hnn (sI + j) (by omega) (by omega) hpj
              · exact absurd ha (by omega)
            · rw [if_neg hpe]
              rcases hfi with ⟨he', _⟩ | ⟨ha, hb2, hq, hm⟩
              · exact absurd he' hpe
              · refine ⟨p - sI, rfl, Or.inr ⟨by omega, by omega, ?_, ?_⟩⟩
                · show value (.slice1 b sI eI) (p - sI) = some ch
                  rw [value_slice1, show sI + (p - sI) = p by ring]
                  exact hq
                · intro j hj1 hj2 hpj
                  replace hpj : value (.slice1 b sI eI) j = some ch := hpj
                  rw [value_slice1] at hpj
                  have := hm (sI + j) (by omega) (by omega) hpj
                  omega
  | sliceN b sI eI st ih =>
      intro hw s e ch hs he
      obtain ⟨hwb, hst, hbnd⟩ := hw
      have hsl : length (.sliceN b sI eI st) = compute_len sI eI st := rfl
      have hbnd2 : ∀ i : Int, 0 ≤ i → i < compute_len sI eI st →
          0 ≤ sI + i * st ∧ sI + i * st < length b := by
        intro i h0 hi
        exact hbnd i h0 (by rw [hsl]; omega)
      rw [hsl]
      simp only [rfindc]
      rw [show (fun j => value (Buf.sliceN b sI eI st) j = some ch)
        = (fun j => value b (sI + j * st) = some ch)
        from funext fun j => by rw [value_sliceN]]
      by_cases h1 : compute_len sI eI st ≤ 0
      · rw [if_pos h1]
        exact ⟨-1, rfl, Or.inl ⟨rfl, fun j hj1 hj2 => absurd hj1 (by omega)⟩⟩
      · rw [if_neg h1]
        rw [if_neg (not_lt.mpr hs), if_neg (not_lt.mpr he)]
        by_cases h2 : s > compute_len sI eI st
        · rw [if_pos h2]
          exact ⟨-1, rfl, Or.inl ⟨rfl, fun j hj1 hj2 => absurd hj1 (by omega)⟩⟩
        · rw [if_neg h2]
          rw [show (if e > compute_len sI eI st then compute_len sI eI st else e)
            = min e (compute_len sI eI st) from by split <;> omega]
          by_cases h3 : s ≥ min e (compute_len sI eI st)
          · rw [if_pos h3]
            exact ⟨-1, rfl, Or.inl ⟨rfl, fun j hj1 hj2 => absurd hj1 (by omega)⟩⟩
          · rw [if_neg h3]
            have hdef : ∀ j : Int,
                min e (compute_len sI eI st)
                  - ((min e (compute_len sI eI st) - s).toNat : Int) ≤ j →
                j < min e (compute_len sI eI st) →
                (value b (sI + j * st)).isSome := by
              intro j hj1 hj2
              obtain ⟨hlo, hhi⟩ := hbnd2 j (by omega) (by omega)
              obtain ⟨v, hv⟩ := value_isSome b hwb _ hlo hhi
              rw [hv]; rfl
            obtain ⟨r', hr', hfi⟩ := sliceScanR_spec b sI st ch
              (min e (compute_len sI eI st) - s).toNat (min e (compute_len sI eI st)) hdef
            refine ⟨r', hr', ?_⟩
            rwa [show min e (compute_len sI eI st)
              - (((min e (compute_len sI eI st) - s).toNat : Int)) = s
              from by omega] at hfi

/-- The `MulBuffer::findc` start clamp (`if (start < 0) start = 0`): a
negative start behaves like start `0`. -/
theorem findc_mul_neg_start (A : Buf) (n s e : Int) (ch : Nat) (hs : s < 0) :
    findc (.mulB A n) s e ch = findc (.mulB A n) 0 e ch := by
  simp only [findc]
  rw [if_pos hs, if_neg (lt_irrefl (0 : Int))]

/-- The `MulBuffer::rfindc` start clamp: a negative start behaves like `0`. -/
theorem rfindc_mul_neg_start (A : Buf) (n s e : Int) (ch : Nat) (hs : s < 0) :
    rfindc (.mulB A n) s e ch = rfindc (.mulB A n) 0 e ch := by
  simp only [rfindc]
  rw [if_pos hs, if_neg (lt_irrefl (0 : Int))]

/-- C5: for every repeat node `repeat(A, n)` with `length(A) > 0` and every
query range, `findc(start, end, ch)` returns the smallest index in the
clamped range `[max(start,0), min(end, length))` whose value is `ch` (or
`-1` if none), and `rfindc(start, end, ch)` returns the largest such index
(or `-1` if none): the periodicity-exploiting two-part search agrees with a
direct scan of the full repeated sequence. -/
theorem C5_repeat_find_rfind_correct (A : Buf) (n s e : Int) (ch : Nat)
    (hw : WF (.mulB A n)) (hA : 0 < length A) :
    (∃ r, findc (.mulB A n) s e ch = some r ∧
      FirstIn (fun j => value (.mulB A n) j = some ch) (max s 0)
        (min e (length (.mulB A n))) r) ∧
    (∃ r, rfindc (.mulB A n) s e ch = some r ∧
      LastIn (fun j => value (.mulB A n) j = some ch) (max s 0)
        (min e (length (.mulB A n))) r) := by
  have hn : 0 ≤ n := hw.2
  have htot : 0 ≤ length A * n := mul_nonneg hA.le hn
  by_cases he : 0 ≤ e
  · constructor
    · by_cases hs : 0 ≤ s
      · rw [show max s 0 = s from max_eq_left hs]
        exact findc_spec _ hw s e ch hs he
      · rw [show max s 0 = (0 : Int) from max_eq_right (by omega),
          findc_mul_neg_start A n s e ch (by omega)]
        exact findc_spec _ hw 0 e ch le_rfl he
    · by_cases hs : 0 ≤ s
      · rw [show max s 0 = s from max_eq_left hs]
        exact rfindc_spec _ hw s e ch hs he
      · rw [show max s 0 = (0 : Int) from max_eq_right (by omega),
          rfindc_mul_neg_start A n s e ch (by omega)]
        exact rfindc_spec _ hw 0 e ch le_rfl he
  · constructor
    · refine ⟨-1, ?_, Or.inl ⟨rfl, fun j hj1 hj2 => absurd hj2 (by omega)⟩⟩
      simp only [findc]
      rw [if_neg (by omega : ¬ length A ≤ 0)]
      rw [show (if e > length A * n then length A * n else e) = e from if_neg (by omega)]
      rw [if_pos (show (if s < 0 then 0 else s) ≥ e from by split <;> omega)]
    · refine ⟨-1, ?_, Or.inl ⟨rfl, fun j hj1 hj2 => absurd hj2 (by omega)⟩⟩
      simp only [rfindc]
      rw [if_neg (by omega : ¬ length A ≤ 0)]
      rw [show (if e > length A * n then length A * n else e) = e from if_neg (by omega)]
      rw [if_pos (show (if s < 0 then 0 else s) ≥ e from by split <;> omega)]

theorem C5_repeat_find_rfind_correct_witness :
    ((∃ r, findc (.mulB (.str [120, 121]) 3) 0 6 121 = some r ∧
      FirstIn (fun j => value (.mulB (.str [120, 121]) 3) j = some 121) (max 0 0)
        (min 6 (length (.mulB (.str [120, 121]) 3))) r) ∧
    (∃ r, rfindc (.mulB (.str [120, 121]) 3) 0 6 121 = some r ∧
      LastIn (fun j => value (.mulB (.str [120, 121]) 3) j = some 121) (max 0 0)
        (min 6 (length (.mulB (.str [120, 121]) 3))) r)) ∧
    findc (.mulB (.str [120, 121]) 3) 0 6 121 = some 1 ∧
    rfindc (.mulB (.str [120, 121]) 3) 0 6 121 = some 5 :=
  ⟨C5_repeat_find_rfind_correct (.str [120, 121]) 3 0 6 121
    ⟨by simp [WF], by norm_num⟩ (by decide),
   by decide, by decide⟩

end LStr
